import Mathlib

/-!
Shallow embedding of `src/emulator.py` (class `ShellEmulator`), a zip-backed
virtual-filesystem shell.  Python strings are modelled as `List Char`
(`PyStr`); the Python standard-library string and `posixpath` operations used
by the emulator (`split`, `strip`, `os.path.join`, `os.path.normpath`,
`os.path.dirname`, …) are translated function by function below.  The host
filesystem touched through `os`/`shutil` is modelled as an association list
from absolute host paths to nodes (exact-path lookup), and the zip archive as
a list of (relative path, optional content) entries.  `sys.exit` is modelled
as a flag, a raised exception as an `Option PyErr` carried in each command
result.
-/

namespace Emu

abbrev PyStr := List Char

/-- Coerce a Lean string literal to the `List Char` model of Python strings. -/
def str (s : String) : PyStr := s.data

/-- `s.startswith(p)` for single-argument use: `startsW p s` means the string
`s` starts with `p`. -/
def startsW : PyStr → PyStr → Bool
  | [], _ => true
  | _ :: _, [] => false
  | a :: p, b :: s => a = b && startsW p s

/-- Python `s.split(sep)` with a one-character separator: keeps empty parts. -/
def split1 (sep : Char) : PyStr → List PyStr
  | [] => [[]]
  | c :: rest =>
    match split1 sep rest with
    | [] => if c = sep then [[], []] else [[c]]
    | w :: ws => if c = sep then [] :: w :: ws else (c :: w) :: ws

/-- Python `sep.join(parts)` with a one-character separator. -/
def joinSep (sep : Char) : List PyStr → PyStr
  | [] => []
  | [w] => w
  | w :: ws => w ++ sep :: joinSep sep ws

/-- Python `s.lstrip(c)` for a one-character strip set. -/
def lstripChar (c : Char) (s : PyStr) : PyStr := s.dropWhile (· = c)

/-- Python `s.rstrip(c)` for a one-character strip set. -/
def rstripChar (c : Char) (s : PyStr) : PyStr :=
  (s.reverse.dropWhile (· = c)).reverse

/-- Python `s.strip(c)` for a one-character strip set. -/
def stripChar (c : Char) (s : PyStr) : PyStr := rstripChar c (lstripChar c s)

/-- The ASCII whitespace characters recognized by Python's no-argument
`str.strip`/`str.split`/`str.rstrip` (the emulator never feeds them other
Unicode whitespace). -/
def isPySpace (c : Char) : Bool :=
  c = ' ' || c = '\t' || c = '\n' || c = '\x0d' || c = '\x0b' || c = '\x0c'

/-- Python `s.strip()` (no argument): strip whitespace from both ends. -/
def pyStripWs (s : PyStr) : PyStr :=
  ((s.dropWhile isPySpace).reverse.dropWhile isPySpace).reverse

/-- Python `s.rstrip()` (no argument): strip trailing whitespace. -/
def pyRstripWs (s : PyStr) : PyStr := (s.reverse.dropWhile isPySpace).reverse

/-- Splitting on a character class, keeping empty parts (helper for
`splitWs`). -/
def splitP (p : Char → Bool) : PyStr → List PyStr
  | [] => [[]]
  | c :: rest =>
    match splitP p rest with
    | [] => if p c then [[], []] else [[c]]
    | w :: ws => if p c then [] :: w :: ws else (c :: w) :: ws

/-- Python `s.split()` (no argument): split on whitespace runs, dropping
empty parts. -/
def splitWs (s : PyStr) : List PyStr :=
  (splitP isPySpace s).filter (fun w => w ≠ [])

/-- Python `s.replace(old, new)` for one-character `old`/`new`. -/
def pyReplace (old new : Char) (s : PyStr) : PyStr :=
  s.map (fun c => if c = old then new else c)

/-- `posixpath.join` on two arguments (`os.path.join` on the POSIX host the
emulator's slash-based paths assume). -/
def pyJoin (a b : PyStr) : PyStr :=
  if startsW ['/'] b then b
  else if a = [] || a.getLast? = some '/' then a ++ b
  else a ++ '/' :: b

/-- The component loop of `posixpath.normpath`: `acc` is the `new_comps`
list of the Python source kept in reverse order (`append`/`pop` become
cons/tail). -/
def npLoop (abs : Bool) : List PyStr → List PyStr → List PyStr
  | acc, [] => acc
  | acc, comp :: rest =>
    if comp = [] ∨ comp = ['.'] then npLoop abs acc rest
    else if comp ≠ ['.', '.'] ∨ (abs = false ∧ acc = []) ∨ acc.head? = some ['.', '.'] then
      npLoop abs (comp :: acc) rest
    else
      match acc with
      | [] => npLoop abs [] rest
      | _ :: t => npLoop abs t rest

/-- The number of initial slashes `posixpath.normpath` preserves: POSIX
keeps exactly two leading slashes as two, any other positive number as
one. -/
def initialSlashes (path : PyStr) : Nat :=
  if startsW ['/'] path then
    if startsW ['/', '/'] path && !startsW ['/', '/', '/'] path then 2 else 1
  else 0

/-- `posixpath.normpath` (the `os.path.normpath` used by
`ShellEmulator.normalize_path` on a POSIX host). -/
def normpath (path : PyStr) : PyStr :=
  if path = [] then ['.']
  else
    let slashes := initialSlashes path
    let comps := split1 '/' path
    let newComps := (npLoop (slashes ≠ 0) [] comps).reverse
    let p := List.replicate slashes '/' ++ joinSep '/' newComps
    if p = [] then ['.'] else p

/-- `ShellEmulator.normalize_path` (src/emulator.py lines 154-157): join a
relative argument onto the current directory, `normpath` the result, and
replace backslashes by slashes. -/
def normalize_path (cwd path : PyStr) : PyStr :=
  let p := if startsW ['/'] path then path else pyJoin cwd path
  pyReplace '\\' '/' (normpath p)

/-- `ShellEmulator.get_full_path` (src/emulator.py lines 159-163): map a
virtual path onto the extracted working area rooted at `root`. -/
def get_full_path (root cwd path : PyStr) : PyStr :=
  if startsW ['/'] path then pyJoin root (lstripChar '/' path)
  else pyJoin (pyJoin root (lstripChar '/' cwd)) path

/-- `posixpath.dirname`. -/
def pyDirname (p : PyStr) : PyStr :=
  let head := (p.reverse.dropWhile (· ≠ '/')).reverse
  if head ≠ [] && head.any (· ≠ '/') then rstripChar '/' head else head

/-- Python string `<` (lexicographic by code point), as used by `sorted`. -/
def pyStrLt : PyStr → PyStr → Bool
  | [], [] => false
  | [], _ :: _ => true
  | _ :: _, [] => false
  | a :: s, b :: t => if a < b then true else if b < a then false else pyStrLt s t

/-- Insert into a strictly `pyStrLt`-increasing list, skipping duplicates. -/
def insertUnique (x : PyStr) : List PyStr → List PyStr
  | [] => [x]
  | y :: ys =>
    if pyStrLt x y then x :: y :: ys
    else if x = y then y :: ys
    else y :: insertUnique x ys

/-- Python `sorted(set(l))`: the distinct elements of `l` in increasing
code-point order. -/
def pySortedSet (l : List PyStr) : List PyStr := l.foldr insertUnique []

/-! ## Host filesystem and archive model

The host filesystem reached through `os`/`shutil` is an association list from
absolute host paths to nodes, with exact-path lookup (the emulator only ever
probes paths it has built itself; directories are always materialized
explicitly by extraction and `os.makedirs`).  The zip archive is a list of
`(relative path, some content | none)` entries, `none` marking a directory
entry. -/

/-- A host filesystem node: a regular file with its byte content, or a
directory. -/
inductive HNode where
  | file (content : PyStr)
  | dir
deriving DecidableEq

/-- The host filesystem: absolute host path to node, first match wins. -/
abbrev HostFS := List (PyStr × HNode)

/-- A zip-archive entry: a path relative to the archive root, with `some`
content for a file and `none` for a directory entry. -/
abbrev Archive := List (PyStr × Option PyStr)

/-- Exact-path lookup in the host filesystem model. -/
def hfind (fs : HostFS) (p : PyStr) : Option HNode :=
  match fs with
  | [] => none
  | (q, n) :: rest => if q = p then some n else hfind rest p

/-- `os.path.exists` on a string path (exact-path model). -/
def hostExists (fs : HostFS) (p : PyStr) : Bool := (hfind fs p).isSome

/-- `os.path.isdir` on a string path (exact-path model). -/
def hostIsDir (fs : HostFS) (p : PyStr) : Bool :=
  match hfind fs p with
  | some .dir => true
  | _ => false

/-- Python exceptions the modelled code can raise. -/
inductive PyErr where
  | typeError
  | isADirectoryError
  | sameFileError
  | fileExistsError
  | oserror
deriving DecidableEq

/-- Overwrite-or-insert a binding in the host filesystem. -/
def hset (fs : HostFS) (p : PyStr) (n : HNode) : HostFS :=
  match fs with
  | [] => [(p, n)]
  | (q, m) :: rest => if q = p then (q, n) :: rest else (q, m) :: hset rest p n

/-- The slash-delimited ancestor paths of `p`, `p` itself included: for
`/a/b/c` this is `[/a, /a/b, /a/b/c]` (helper for `os.makedirs`). -/
def pathChain (p : PyStr) : List PyStr :=
  match split1 '/' p with
  | [] => []
  | c0 :: cs =>
    (cs.foldl (fun (acc : List PyStr × PyStr) c =>
        let q := acc.2 ++ '/' :: c
        (acc.1 ++ [q], q)) ([c0].filter (fun w => w ≠ []), c0)).1

/-- The worker of `os.makedirs`: create each listed path as a directory if
missing; raise if it already exists as a regular file. -/
def makedirs0 (fs : HostFS) : List PyStr → Except PyErr HostFS
  | [] => .ok fs
  | q :: qs =>
    match hfind fs q with
    | some (.file _) => .error .fileExistsError
    | some .dir => makedirs0 fs qs
    | none => makedirs0 (hset fs q .dir) qs

/-- `os.makedirs(p, exist_ok=True)`: create every missing ancestor directory
of `p` and `p` itself; raise if a needed component already exists as a
regular file. -/
def makedirs (fs : HostFS) (p : PyStr) : Except PyErr HostFS :=
  makedirs0 fs (pathChain p)

/-- `shutil.copyfile(src, dst)`: refuse to copy a path onto itself, refuse a
directory destination, otherwise write the source bytes to `dst`. -/
def copyfile (fs : HostFS) (src dst : PyStr) : Except PyErr HostFS :=
  if src = dst then .error .sameFileError
  else
    match hfind fs dst with
    | some .dir => .error .isADirectoryError
    | _ =>
      match hfind fs src with
      | some (.file c) => .ok (hset fs dst (.file c))
      | _ => .error .oserror

/-- `zipfile.ZipFile.extractall(root)`: materialize each archive entry under
`root`, creating the directories leading to it. -/
def extractAll (a : Archive) (root : PyStr) : HostFS :=
  (root, .dir) :: a.flatMap (fun e =>
    ((pathChain e.1).dropLast.map (fun q => (root ++ '/' :: q, HNode.dir)))
    ++ [(root ++ '/' :: e.1,
         match e.2 with
         | some c => HNode.file c
         | none => HNode.dir)])

/-- `shutil.make_archive(_, 'zip', root)`: zip the whole tree strictly below
`root`, entry names relative to `root`. -/
def packArchive (fs : HostFS) (root : PyStr) : Archive :=
  fs.filterMap (fun e =>
    if startsW (root ++ ['/']) e.1 then
      some (e.1.drop (root.length + 1),
            match e.2 with
            | .file c => some c
            | .dir => none)
    else none)

/-- `shutil.rmtree(root)`: drop `root` and everything below it. -/
def rmtree (fs : HostFS) (root : PyStr) : HostFS :=
  fs.filter (fun e => !(e.1 = root || startsW (root ++ ['/']) e.1))

/-! ## Emulator state and command handlers

`ShellEmulator`'s mutable attributes.  `self.vfs_path_extracted` (the
`tempfile.mkdtemp` directory, reset to `None` by `cleanup`) is modelled as the
fixed `temp_dir` string together with the flag `vfs_open`; `None` corresponds
to `vfs_open = false`.  The in-memory log `self.log` is kept as the list of
`action` fields of its entries (timestamps and the constant user name carry no
information the claims mention); the JSON dump rewriting `log_path` mirrors
this list.  `sys.exit(0)` is modelled by the `exited` flag. -/

structure EmuState where
  current_path : PyStr
  files : List PyStr
  temp_dir : PyStr
  vfs_open : Bool
  fs : HostFS
  archive : Archive
  log : List PyStr
  exited : Bool
deriving DecidableEq

/-- The outcome of one handler or command: the new state, the lines printed,
and `some e` when a Python exception escaped. -/
structure CmdRes where
  st : EmuState
  out : List PyStr
  exc : Option PyErr
deriving DecidableEq

/-- `ShellEmulator.read_vfs` (lines 38-50): rebuild `self.files` by walking
the working area; directories get a trailing slash, every entry is the
`/`-rooted path relative to the working-area root.  (`os.walk` enumeration
order is modelled as the association-list order; no consumer of `self.files`
is order-sensitive.) -/
def read_vfs (st : EmuState) : EmuState :=
  { st with
    files := st.fs.filterMap (fun e =>
      if startsW (st.temp_dir ++ ['/']) e.1 then
        some ('/' :: e.1.drop (st.temp_dir.length + 1) ++
              (match e.2 with | .dir => ['/'] | .file _ => []))
      else none) }

/-- The child-name computation of `ShellEmulator.list_dir` (lines 79-89) for
one indexed entry `f` against the slash-terminated directory path: `none`
when `f` contributes nothing. -/
def lsChild (p f : PyStr) : Option PyStr :=
  if startsW p f then
    let sub := stripChar '/' (f.drop p.length)
    if sub.contains '/' then some (sub.takeWhile (· ≠ '/') ++ ['/'])
    else if sub ≠ [] then
      some (if f.getLast? = some '/' then sub ++ ['/'] else sub)
    else none
  else none

/-- The listing `ShellEmulator.list_dir` prints for an already-normalized,
slash-terminated directory path: the contributed child names as a sorted
set. -/
def lsListing (files : List PyStr) (p : PyStr) : List PyStr :=
  pySortedSet (files.filterMap (lsChild p))

/-- `ShellEmulator.list_dir` (lines 73-91). -/
def list_dir (st : EmuState) (args : List PyStr) : CmdRes :=
  let path := match args with | [] => st.current_path | a :: _ => a
  let np := normalize_path st.current_path path
  let np := if np.getLast? = some '/' then np else np ++ ['/']
  ⟨st, lsListing st.files np, none⟩

/-- The existence test of `ShellEmulator.change_dir` (line 105): the
slash-terminated directory path is itself indexed or is a prefix of an
indexed entry. -/
def dirInIndex (files : List PyStr) (p : PyStr) : Bool :=
  files.any (fun f => f = p || startsW p f)

/-- `ShellEmulator.change_dir` (lines 93-110). -/
def change_dir (st : EmuState) (args : List PyStr) : CmdRes :=
  match args with
  | [] => ⟨st, [], none⟩
  | new_path :: _ =>
    if new_path = str ".." then
      if st.current_path ≠ str "/" then
        let d := pyDirname (rstripChar '/' st.current_path)
        ⟨{ st with current_path := if d = [] then str "/" else d }, [], none⟩
      else ⟨st, [], none⟩
    else
      let potential := normalize_path st.current_path new_path
      let potential := if potential.getLast? = some '/' then potential else potential ++ ['/']
      if dirInIndex st.files potential then
        let c := rstripChar '/' potential
        ⟨{ st with current_path := if c = [] then str "/" else c }, [], none⟩
      else ⟨st, [str "cd: no such file or directory: " ++ new_path], none⟩

/-- `ShellEmulator.copy_file` (lines 112-130). -/
def copy_file (st : EmuState) (args : List PyStr) : CmdRes :=
  match args with
  | [src0, dest0] =>
    let src := normalize_path st.current_path src0
    let dest := normalize_path st.current_path dest0
    let full_src := get_full_path st.temp_dir st.current_path src
    let full_dest := get_full_path st.temp_dir st.current_path dest
    if !hostExists st.fs full_src then
      ⟨st, [str "cp: cannot stat '" ++ src ++ str "': No such file or directory"], none⟩
    else if hostIsDir st.fs full_src then
      ⟨st, [str "cp: omitting directory '" ++ src ++ str "'"], none⟩
    else
      match makedirs st.fs (pyDirname full_dest) with
      | .error e => ⟨st, [], some e⟩
      | .ok fs1 =>
        match copyfile fs1 full_src full_dest with
        | .error e => ⟨{ st with fs := fs1 }, [], some e⟩
        | .ok fs2 => ⟨read_vfs { st with fs := fs2 }, [], none⟩
  | _ => ⟨st, [str "cp: requires source and destination."], none⟩

/-- Python `file.readline()` semantics on remaining content: the chunk up to
and including the first newline (the whole remainder when none). -/
def readLine1 (s : PyStr) : PyStr :=
  match s with
  | [] => []
  | c :: rest => if c = '\n' then ['\n'] else c :: readLine1 rest

/-- The content split as successive `readline()` results: each line keeps its
newline; a final fragment without a newline is kept, and nothing follows the
end of the content. -/
def pyReadLines (s : PyStr) : List PyStr :=
  match s with
  | [] => []
  | c :: rest =>
    match pyReadLines rest with
    | [] => if c = '\n' then [['\n']] else [[c]]
    | l :: ls => if c = '\n' then ['\n'] :: l :: ls else (c :: l) :: ls

/-- The read-print loop of `ShellEmulator.head_file` (lines 143-147): up to
`fuel` `readline()` calls on the remaining content, stopping at the first
empty result, printing each line right-stripped. -/
def headLoop (fuel : Nat) (s : PyStr) : List PyStr :=
  match fuel with
  | 0 => []
  | n + 1 =>
    let line := readLine1 s
    if line = [] then []
    else pyRstripWs line :: headLoop n (s.drop line.length)

/-- `ShellEmulator.head_file` (lines 132-149).  Opening an existing directory
raises `IsADirectoryError`, which the handler's `except` turns into the
error-reading message (its `str(e)` rendering is abbreviated here; no claim
inspects it). -/
def head_file (st : EmuState) (args : List PyStr) : CmdRes :=
  match args with
  | [] => ⟨st, [str "head: missing file operand."], none⟩
  | a :: _ =>
    let file := normalize_path st.current_path a
    let full := get_full_path st.temp_dir st.current_path file
    match hfind st.fs full with
    | none => ⟨st, [str "head: cannot open '" ++ a ++ str "': No such file or directory"], none⟩
    | some .dir => ⟨st, [str "head: error reading '" ++ a ++ str "': Is a directory"], none⟩
    | some (.file content) => ⟨st, headLoop 10 content, none⟩

/-- `ShellEmulator.cleanup` (lines 188-196).  With `vfs_path_extracted` set
to `None` by an earlier cleanup, `os.path.exists(None)` raises `TypeError`;
otherwise the working area is packed over the archive and removed. -/
def cleanup (st : EmuState) : EmuState × Option PyErr :=
  if !st.vfs_open then (st, some .typeError)
  else if hostExists st.fs st.temp_dir then
    ({ st with
        archive := packArchive st.fs st.temp_dir
        fs := rmtree st.fs st.temp_dir
        vfs_open := false }, none)
  else (st, none)

/-- `ShellEmulator.log_action` (lines 52-60) restricted to its in-memory
effect: append one entry whose `action` is the given string (the JSON file
rewrite mirrors `self.log`). -/
def log_action (st : EmuState) (action : PyStr) : EmuState :=
  { st with log := st.log ++ [action] }

/-- `ShellEmulator.execute_command` (lines 165-186): skip blank lines, split
on whitespace, dispatch on the first token, then log the verbatim line —
except that `exit` logs the literal string `"exit"` and terminates before
reaching the final `log_action`, and that an escaping exception (possible
only for `cp`) also skips it. -/
def execute_command (st : EmuState) (command_line : PyStr) : CmdRes :=
  if pyStripWs command_line = [] then ⟨st, [], none⟩
  else
    match splitWs command_line with
    | [] => ⟨st, [], none⟩
    | cmd :: args =>
      if cmd = str "exit" then
        let st1 := log_action st (str "exit")
        match cleanup st1 with
        | (st2, none) => ⟨{ st2 with exited := true }, [], none⟩
        | (st2, some e) => ⟨st2, [], some e⟩
      else
        let r : CmdRes :=
          if cmd = str "ls" then list_dir st args
          else if cmd = str "cd" then change_dir st args
          else if cmd = str "cp" then copy_file st args
          else if cmd = str "head" then head_file st args
          else if cmd = str "clear" then ⟨st, [], none⟩
          else ⟨st, [cmd ++ str ": command not found"], none⟩
        match r.exc with
        | some e => ⟨r.st, r.out, some e⟩
        | none => ⟨log_action r.st command_line, r.out, none⟩

/-- The dispatch step of `execute_command` for a non-`exit` head token. -/
def dispatch (st : EmuState) (cmd : PyStr) (args : List PyStr) : CmdRes :=
  if cmd = str "ls" then list_dir st args
  else if cmd = str "cd" then change_dir st args
  else if cmd = str "cp" then copy_file st args
  else if cmd = str "head" then head_file st args
  else if cmd = str "clear" then ⟨st, [], none⟩
  else ⟨st, [cmd ++ str ": command not found"], none⟩

/-- The slash-terminated directory path `change_dir` tests against the
index (lines 101-104). -/
def cdTarget (cwd arg : PyStr) : PyStr :=
  let np := normalize_path cwd arg
  if np.getLast? = some '/' then np else np ++ ['/']

/-! ## Specification-side definitions

These definitions transcribe the spec's wording, to be compared with the
behavior of the code-derived definitions above. -/

/-- Containment in the working area, as claim C1 states it: the host location
starts with the working-area root plus a separator, and no `..` path segment
follows, so lexical resolution cannot leave the root. -/
def insideRoot (root host : PyStr) : Bool :=
  startsW (root ++ ['/']) host &&
  (split1 '/' (host.drop (root.length + 1))).all (fun seg => seg ≠ ['.', '.'])

/-- No two consecutive slashes. -/
def noDoubleSlash : PyStr → Bool
  | a :: b :: rest => !(a = '/' && b = '/') && noDoubleSlash (b :: rest)
  | _ => true

/-- Well-formedness of an index entry as `read_vfs` produces them: a leading
slash followed by at least one character, and no empty path segment. -/
def wfEntry (f : PyStr) : Bool :=
  startsW ['/'] f && noDoubleSlash f && decide (2 ≤ f.length)

/-- The per-entry listing transformation as the spec words it: after the
prefix is stripped, a remainder with a further slash is collapsed to its
first segment with a trailing slash; otherwise it is kept as-is. -/
def collapseSpec (rest : PyStr) : PyStr :=
  if rest.contains '/' then rest.takeWhile (· ≠ '/') ++ ['/'] else rest

/-- Stripping only a trailing newline, as claim C3 words the per-line
output of `head`. -/
def stripNlOnly (l : PyStr) : PyStr :=
  if l.getLast? = some '\n' then l.dropLast else l

/-- The regular files of an archive, with their contents. -/
def fileEntries (a : Archive) : List (PyStr × PyStr) :=
  a.filterMap (fun e => e.2.map (fun c => (e.1, c)))

/-- A small populated session state: the working area `/w` holds `home/`,
`home/user/`, `file1.txt` and `startup.sh`, the index mirrors it, and the
current directory is the root. -/
def st0 : EmuState :=
  { current_path := str "/"
  , files := [str "/home/", str "/home/user/", str "/file1.txt", str "/startup.sh"]
  , temp_dir := str "/w"
  , vfs_open := true
  , fs := [(str "/w", .dir), (str "/w/home", .dir), (str "/w/home/user", .dir),
           (str "/w/file1.txt", .file (str "L1\nL2 \n")), (str "/w/startup.sh", .file (str "ls\n"))]
  , archive := []
  , log := []
  , exited := false }

/-! ## Helper lemmas -/

theorem startsW_iff_append (p s : PyStr) : startsW p s = true ↔ ∃ t, s = p ++ t := by
  induction p generalizing s with
  | nil => simp [startsW]
  | cons a p ih =>
    cases s with
    | nil => simp [startsW]
    | cons b s =>
      simp only [startsW, Bool.and_eq_true, decide_eq_true_eq, ih]
      constructor
      · rintro ⟨rfl, t, rfl⟩
        exact ⟨t, rfl⟩
      · rintro ⟨t, ht⟩
        cases ht
        exact ⟨rfl, t, rfl⟩

theorem startsW_append_self (p t : PyStr) : startsW p (p ++ t) = true :=
  (startsW_iff_append p (p ++ t)).mpr ⟨t, rfl⟩

theorem length_le_of_startsW {p s : PyStr} (h : startsW p s = true) : p.length ≤ s.length := by
  obtain ⟨t, rfl⟩ := (startsW_iff_append p s).mp h
  simp

theorem split1_cons (sep c : Char) (rest : PyStr) :
    split1 sep (c :: rest) =
      match split1 sep rest with
      | [] => if c = sep then [[], []] else [[c]]
      | w :: ws => if c = sep then [] :: w :: ws else (c :: w) :: ws := rfl

theorem split1_ne_nil (sep : Char) (s : PyStr) : split1 sep s ≠ [] := by
  cases s with
  | nil => simp [split1]
  | cons c rest =>
    rw [split1_cons]
    cases h : split1 sep rest with
    | nil => by_cases hc : c = sep <;> simp [hc]
    | cons w ws => by_cases hc : c = sep <;> simp [hc]

theorem split1_chars (sep : Char) (s : PyStr) :
    ∀ c ∈ split1 sep s, ∀ ch ∈ c, ch ∈ s ∧ ch ≠ sep := by
  induction s with
  | nil => simp [split1]
  | cons a rest ih =>
    intro c hc ch hch
    rw [split1_cons] at hc
    cases h : split1 sep rest with
    | nil => exact absurd h (split1_ne_nil sep rest)
    | cons w ws =>
      rw [h] at hc
      by_cases ha : a = sep
      · simp only [ha, if_true, eq_self_iff_true, List.mem_cons] at hc
        rcases hc with rfl | rfl | hc
        · cases hch
        · have := ih c (by rw [h]; exact List.mem_cons_self _ _) ch hch
          exact ⟨List.mem_cons_of_mem _ this.1, this.2⟩
        · have := ih c (by rw [h]; exact List.mem_cons_of_mem w hc) ch hch
          exact ⟨List.mem_cons_of_mem _ this.1, this.2⟩
      · simp only [if_neg ha, List.mem_cons] at hc
        rcases hc with rfl | hc
        · rcases List.mem_cons.mp hch with rfl | hch
          · exact ⟨List.mem_cons_self _ _, ha⟩
          · have := ih w (by rw [h]; exact List.mem_cons_self w ws) ch hch
            exact ⟨List.mem_cons_of_mem _ this.1, this.2⟩
        · have := ih c (by rw [h]; exact List.mem_cons_of_mem w hc) ch hch
          exact ⟨List.mem_cons_of_mem _ this.1, this.2⟩

theorem split1_no_sep (sep : Char) (c : PyStr) (h : ∀ ch ∈ c, ch ≠ sep) :
    split1 sep c = [c] := by
  induction c with
  | nil => simp [split1]
  | cons a r ih =>
    have ha : a ≠ sep := h a (List.mem_cons_self a r)
    have hr : split1 sep r = [r] := ih (fun ch hch => h ch (List.mem_cons_of_mem a hch))
    rw [split1_cons, hr]
    simp [ha]

theorem split1_append_sep (sep : Char) (c t : PyStr) (h : ∀ ch ∈ c, ch ≠ sep) :
    split1 sep (c ++ sep :: t) = c :: split1 sep t := by
  induction c with
  | nil =>
    simp only [List.nil_append]
    rw [split1_cons]
    cases ht : split1 sep t with
    | nil => exact absurd ht (split1_ne_nil sep t)
    | cons w ws => simp
  | cons a r ih =>
    have ha : a ≠ sep := h a (List.mem_cons_self a r)
    have hr := ih (fun ch hch => h ch (List.mem_cons_of_mem a hch))
    simp only [List.cons_append]
    rw [split1_cons, hr]
    simp [ha]

theorem split1_joinSep (sep : Char) (cs : List PyStr) (hne : cs ≠ [])
    (h : ∀ c ∈ cs, ∀ ch ∈ c, ch ≠ sep) : split1 sep (joinSep sep cs) = cs := by
  induction cs with
  | nil => exact absurd rfl hne
  | cons c cs ih =>
    cases cs with
    | nil => exact split1_no_sep sep c (h c (List.mem_cons_self c []))
    | cons c2 cs2 =>
      have : joinSep sep (c :: c2 :: cs2) = c ++ sep :: joinSep sep (c2 :: cs2) := rfl
      rw [this, split1_append_sep sep c _ (h c (List.mem_cons_self _ _)),
        ih (by simp) (fun d hd ch hch => h d (List.mem_cons_of_mem c hd) ch hch)]

theorem joinSep_chars (sep : Char) (cs : List PyStr) :
    ∀ ch ∈ joinSep sep cs, ch = sep ∨ ∃ c ∈ cs, ch ∈ c := by
  induction cs with
  | nil => simp [joinSep]
  | cons c cs ih =>
    intro ch hch
    cases cs with
    | nil => exact Or.inr ⟨c, List.mem_cons_self _ _, by simpa [joinSep] using hch⟩
    | cons c2 cs2 =>
      have : joinSep sep (c :: c2 :: cs2) = c ++ sep :: joinSep sep (c2 :: cs2) := rfl
      rw [this] at hch
      rcases List.mem_append.mp hch with hc | hc
      · exact Or.inr ⟨c, List.mem_cons_self _ _, hc⟩
      · rcases List.mem_cons.mp hc with rfl | hc
        · exact Or.inl rfl
        · rcases ih ch hc with h1 | ⟨d, hd, hchd⟩
          · exact Or.inl h1
          · exact Or.inr ⟨d, List.mem_cons_of_mem c hd, hchd⟩

theorem dropWhile_replicate_append (c : Char) (k : Nat) (x : PyStr) :
    (List.replicate k c ++ x).dropWhile (· = c) = x.dropWhile (· = c) := by
  induction k with
  | zero => simp
  | succ n ih => simp [List.replicate_succ, List.dropWhile_cons, ih]

theorem dropWhile_head_ne {p : Char → Bool} {x : PyStr} {a : Char}
    (hx : x.head? = some a) (ha : p a = false) : x.dropWhile p = x := by
  cases x with
  | nil => cases hx
  | cons b t =>
    obtain rfl : b = a := by simpa using hx
    simp [List.dropWhile_cons, ha]

theorem joinSep_head_chars (sep : Char) (c : PyStr) (cs : List PyStr) :
    ∃ t, joinSep sep (c :: cs) = c ++ t := by
  cases cs with
  | nil => exact ⟨[], by simp [joinSep]⟩
  | cons c2 cs2 => exact ⟨sep :: joinSep sep (c2 :: cs2), rfl⟩

theorem npLoop_cons (abs : Bool) (acc : List PyStr) (comp : PyStr) (rest : List PyStr) :
    npLoop abs acc (comp :: rest) =
      if comp = [] ∨ comp = ['.'] then npLoop abs acc rest
      else if comp ≠ ['.', '.'] ∨ (abs = false ∧ acc = []) ∨ acc.head? = some ['.', '.'] then
        npLoop abs (comp :: acc) rest
      else
        match acc with
        | [] => npLoop abs [] rest
        | _ :: t => npLoop abs t rest := rfl

theorem npLoop_invariant (R : PyStr → Prop) (comps : List PyStr) :
    ∀ acc, (∀ c ∈ acc, R c ∧ c ≠ [] ∧ c ≠ ['.'] ∧ c ≠ ['.', '.']) →
      (∀ c ∈ comps, R c) →
      ∀ c ∈ npLoop true acc comps, R c ∧ c ≠ [] ∧ c ≠ ['.'] ∧ c ≠ ['.', '.'] := by
  induction comps with
  | nil => exact fun acc hacc _ c hc => hacc c hc
  | cons comp rest ih =>
    intro acc hacc hcomps c hc
    have hcr : ∀ d ∈ rest, R d := fun d hd => hcomps d (List.mem_cons_of_mem _ hd)
    have hcomp : R comp := hcomps comp (List.mem_cons_self _ _)
    rw [npLoop_cons] at hc
    by_cases h1 : comp = [] ∨ comp = ['.']
    · rw [if_pos h1] at hc
      exact ih acc hacc hcr c hc
    · rw [if_neg h1] at hc
      push_neg at h1
      by_cases h2 : comp ≠ ['.', '.'] ∨ (true = false ∧ acc = []) ∨ acc.head? = some ['.', '.']
      · rw [if_pos h2] at hc
        have hdd : comp ≠ ['.', '.'] := by
          rcases h2 with h | ⟨hf, _⟩ | h
          · exact h
          · simp at hf
          · cases acc with
            | nil => simp at h
            | cons prev t =>
              have : prev = ['.', '.'] := by simpa using h
              exact absurd ((hacc prev (List.mem_cons_self _ _)).2.2.2) (by rw [this]; simp)
        refine ih (comp :: acc) ?_ hcr c hc
        intro d hd
        rcases List.mem_cons.mp hd with rfl | hd
        · exact ⟨hcomp, h1.1, h1.2, hdd⟩
        · exact hacc d hd
      · rw [if_neg h2] at hc
        cases acc with
        | nil => exact ih [] (by simp) hcr c hc
        | cons a t =>
          exact ih t (fun d hd => hacc d (List.mem_cons_of_mem a hd)) hcr c hc

theorem normpath_abs (path : PyStr) (h : startsW ['/'] path = true) :
    ∃ cs, (initialSlashes path = 1 ∨ initialSlashes path = 2) ∧
      normpath path = List.replicate (initialSlashes path) '/' ++ joinSep '/' cs ∧
      ∀ c ∈ cs, (∀ ch ∈ c, ch ∈ path ∧ ch ≠ '/') ∧ c ≠ [] ∧ c ≠ ['.'] ∧ c ≠ ['.', '.'] := by
  have hne : path ≠ [] := by
    cases path with
    | nil => simp [startsW] at h
    | cons a t => simp
  have hk : initialSlashes path = 1 ∨ initialSlashes path = 2 := by
    unfold initialSlashes
    rw [if_pos h]
    by_cases h2 : (startsW ['/', '/'] path && !startsW ['/', '/', '/'] path) = true
    · rw [if_pos h2]; exact Or.inr rfl
    · rw [if_neg h2]; exact Or.inl rfl
  have hdec : decide (initialSlashes path ≠ 0) = true := by
    rcases hk with hk1 | hk1 <;> rw [hk1] <;> decide
  refine ⟨(npLoop true [] (split1 '/' path)).reverse, hk, ?_, ?_⟩
  · have hpne : List.replicate (initialSlashes path) '/'
        ++ joinSep '/' (npLoop true [] (split1 '/' path)).reverse ≠ [] := by
      rcases hk with hk1 | hk1 <;> rw [hk1] <;> simp
    unfold normpath
    rw [if_neg hne]
    simp only [hdec]
    rw [if_neg hpne]
  · intro c hc
    have hmem := List.mem_reverse.mp hc
    have := npLoop_invariant (fun c => ∀ ch ∈ c, ch ∈ path ∧ ch ≠ '/')
      (split1 '/' path) [] (by simp)
      (fun c hc ch hch => split1_chars '/' path c hc ch hch) c hmem
    exact this

theorem pyReplace_eq_self {old new : Char} {s : PyStr} (h : ∀ ch ∈ s, ch ≠ old) :
    pyReplace old new s = s := by
  unfold pyReplace
  conv_rhs => rw [← List.map_id s]
  exact List.map_congr_left (fun a ha => by simp [h a ha])

theorem startsW_replicate_slash (k : Nat) (hk : 1 ≤ k) (x : PyStr) :
    startsW ['/'] (List.replicate k '/' ++ x) = true := by
  cases k with
  | zero => cases hk
  | succ n => simp [List.replicate_succ, startsW]

theorem c1_core (root cwd q np : PyStr)
    (hqabs : startsW ['/'] q = true)
    (hrne : root ≠ []) (hrsl : root.getLast? ≠ some '/')
    (hqbs : ∀ ch ∈ q, ch ≠ '\\')
    (hnp : np = pyReplace '\\' '/' (normpath q)) :
    insideRoot root (get_full_path root cwd np) = true := by
  obtain ⟨cs, hk, hstruct, hcs⟩ := normpath_abs q hqabs
  have hrep : pyReplace '\\' '/' (normpath q) = normpath q := by
    apply pyReplace_eq_self
    intro ch hch
    rw [hstruct] at hch
    rcases List.mem_append.mp hch with h | h
    · rw [List.eq_of_mem_replicate h]; decide
    · rcases joinSep_chars '/' cs ch h with rfl | ⟨c, hcmem, hchc⟩
      · decide
      · exact hqbs ch ((hcs c hcmem).1 ch hchc).1
  have hk1 : 1 ≤ initialSlashes q := by rcases hk with h | h <;> rw [h] <;> decide
  rw [hnp, hrep, hstruct]
  have habs2 : startsW ['/'] (List.replicate (initialSlashes q) '/' ++ joinSep '/' cs) = true :=
    startsW_replicate_slash _ hk1 _
  unfold get_full_path
  rw [if_pos habs2]
  have hlstrip : lstripChar '/' (List.replicate (initialSlashes q) '/' ++ joinSep '/' cs)
      = joinSep '/' cs := by
    unfold lstripChar
    rw [dropWhile_replicate_append]
    cases hcs0 : cs with
    | nil => simp [joinSep]
    | cons c cs2 =>
      have hcne : c ≠ [] := (hcs c (by rw [hcs0]; exact List.mem_cons_self _ _)).2.1
      cases c with
      | nil => exact absurd rfl hcne
      | cons ch0 c2 =>
        have hch0 : ch0 ≠ '/' :=
          ((hcs (ch0 :: c2) (by rw [hcs0]; exact List.mem_cons_self _ _)).1 ch0
            (List.mem_cons_self _ _)).2
        obtain ⟨t, ht⟩ := joinSep_head_chars '/' (ch0 :: c2) cs2
        exact dropWhile_head_ne (a := ch0) (by rw [ht]; simp) (by simp [hch0])
  rw [hlstrip]
  have hxabs : startsW ['/'] (joinSep '/' cs) = false := by
    cases hcs0 : cs with
    | nil => simp [joinSep, startsW]
    | cons c cs2 =>
      have hcne : c ≠ [] := (hcs c (by rw [hcs0]; exact List.mem_cons_self _ _)).2.1
      cases c with
      | nil => exact absurd rfl hcne
      | cons ch0 c2 =>
        have hch0 : ch0 ≠ '/' :=
          ((hcs (ch0 :: c2) (by rw [hcs0]; exact List.mem_cons_self _ _)).1 ch0
            (List.mem_cons_self _ _)).2
        obtain ⟨t, ht⟩ := joinSep_head_chars '/' (ch0 :: c2) cs2
        rw [ht]
        simp [startsW, Ne.symm hch0]
  unfold pyJoin
  rw [if_neg (by simp [hxabs]), if_neg (by simp [hrne, hrsl])]
  unfold insideRoot
  rw [Bool.and_eq_true]
  have hsplit : root ++ '/' :: joinSep '/' cs = (root ++ ['/']) ++ joinSep '/' cs := by simp
  constructor
  · rw [hsplit]; exact startsW_append_self _ _
  · rw [hsplit]
    have hlen : root.length + 1 = (root ++ ['/']).length := by simp
    rw [hlen, List.drop_left]
    cases hcs0 : cs with
    | nil => simp [joinSep, split1]
    | cons c cs2 =>
      rw [split1_joinSep '/' (c :: cs2) (by simp)
        (by rw [← hcs0]; exact fun d hd ch hch => ((hcs d hd).1 ch hch).2)]
      rw [← hcs0, List.all_eq_true]
      intro seg hseg
      simp only [decide_eq_true_eq]
      exact (hcs seg hseg).2.2.2

/-- C1 (amended): for backslash-free arguments and current working
directories, the host location computed by `normalize_path` followed by
`get_full_path` stays inside the working-area root. -/
theorem c1_contained (root cwd p : PyStr)
    (hcwd : startsW ['/'] cwd = true)
    (hrne : root ≠ []) (hrsl : root.getLast? ≠ some '/')
    (hb1 : ∀ ch ∈ cwd, ch ≠ '\\') (hb2 : ∀ ch ∈ p, ch ≠ '\\') :
    insideRoot root (get_full_path root cwd (normalize_path cwd p)) = true := by
  by_cases habs : startsW ['/'] p = true
  · exact c1_core root cwd p _ habs hrne hrsl hb2
      (by unfold normalize_path; rw [if_pos habs])
  · have hqabs : startsW ['/'] (pyJoin cwd p) = true := by
      obtain ⟨t, rfl⟩ := (startsW_iff_append ['/'] cwd).mp hcwd
      unfold pyJoin
      rw [if_neg (by simp [habs])]
      by_cases hc : ((('/' :: t : PyStr) = []) ∨ (List.getLast? ('/' :: t) = some '/'))
      · rw [if_pos (by simpa using hc)]
        simp [startsW]
      · rw [if_neg (by simpa using hc)]
        simp [startsW]
    have hqbs : ∀ ch ∈ pyJoin cwd p, ch ≠ '\\' := by
      intro ch hch
      unfold pyJoin at hch
      split at hch
      · exact hb2 ch hch
      · split at hch
        · rcases List.mem_append.mp hch with h | h
          · exact hb1 ch h
          · exact hb2 ch h
        · rcases List.mem_append.mp hch with h | h
          · exact hb1 ch h
          · rcases List.mem_cons.mp h with rfl | h
            · decide
            · exact hb2 ch h
    exact c1_core root cwd (pyJoin cwd p) _ hqabs hrne hrsl hqbs
      (by unfold normalize_path; rw [if_neg (by simp [habs])])

theorem splitP_cons (p : Char → Bool) (c : Char) (rest : PyStr) :
    splitP p (c :: rest) =
      match splitP p rest with
      | [] => if p c then [[], []] else [[c]]
      | w :: ws => if p c then [] :: w :: ws else (c :: w) :: ws := rfl

theorem splitP_ne_nil (p : Char → Bool) (s : PyStr) : splitP p s ≠ [] := by
  cases s with
  | nil => simp [splitP]
  | cons c rest =>
    rw [splitP_cons]
    cases h : splitP p rest with
    | nil => by_cases hc : p c <;> simp [hc]
    | cons w ws => by_cases hc : p c <;> simp [hc]

theorem splitWs_eq_nil_iff (l : PyStr) :
    splitWs l = [] ↔ ∀ ch ∈ l, isPySpace ch = true := by
  induction l with
  | nil => simp [splitWs, splitP]
  | cons c rest ih =>
    cases h : splitP isPySpace rest with
    | nil => exact absurd h (splitP_ne_nil _ rest)
    | cons w ws =>
      by_cases hc : isPySpace c
      · have heq : splitWs (c :: rest) = splitWs rest := by
          unfold splitWs
          rw [splitP_cons, h]
          simp [hc]
        rw [heq, ih]
        simp only [List.mem_cons]
        constructor
        · rintro hr ch (rfl | hch)
          · exact hc
          · exact hr ch hch
        · intro hr ch hch
          exact hr ch (Or.inr hch)
      · constructor
        · intro hx
          exfalso
          unfold splitWs at hx
          rw [splitP_cons, h] at hx
          simp [hc] at hx
        · intro hr
          exact absurd (hr c (List.mem_cons_self _ _)) hc

theorem pyStripWs_eq_nil_iff (l : PyStr) :
    pyStripWs l = [] ↔ ∀ ch ∈ l, isPySpace ch = true := by
  unfold pyStripWs
  rw [List.reverse_eq_nil_iff, List.dropWhile_eq_nil_iff]
  constructor
  · intro h ch hch
    rw [← List.takeWhile_append_dropWhile (p := isPySpace) (l := l)] at hch
    rcases List.mem_append.mp hch with h1 | h1
    · exact List.mem_takeWhile_imp h1
    · exact h ch (List.mem_reverse.mpr h1)
  · intro h ch hch
    exact h ch ((List.dropWhile_sublist isPySpace).mem (List.mem_reverse.mp hch))

theorem read_vfs_log (st : EmuState) : (read_vfs st).log = st.log := rfl

theorem cleanup_log (st : EmuState) : (cleanup st).1.log = st.log := by
  unfold cleanup
  split
  · rfl
  · split
    · rfl
    · rfl

theorem copy_file_log (st : EmuState) (args : List PyStr) :
    (copy_file st args).st.log = st.log := by
  unfold copy_file
  rcases args with _ | ⟨a, _ | ⟨b, _ | ⟨c, t⟩⟩⟩
  · rfl
  · rfl
  · simp only
    repeat' split
    all_goals rfl
  · rfl

theorem change_dir_log (st : EmuState) (args : List PyStr) :
    (change_dir st args).st.log = st.log := by
  unfold change_dir
  rcases args with _ | ⟨a, t⟩
  · rfl
  · simp only
    repeat' split
    all_goals rfl

theorem head_file_log (st : EmuState) (args : List PyStr) :
    (head_file st args).st.log = st.log := by
  unfold head_file
  rcases args with _ | ⟨a, t⟩
  · rfl
  · simp only
    repeat' split
    all_goals rfl

theorem dispatch_log (st : EmuState) (cmd : PyStr) (args : List PyStr) :
    (dispatch st cmd args).st.log = st.log := by
  unfold dispatch
  split
  · unfold list_dir; rfl
  · split
    · exact change_dir_log st args
    · split
      · exact copy_file_log st args
      · split
        · exact head_file_log st args
        · split
          · rfl
          · rfl

theorem execute_command_eq (st : EmuState) (line cmd : PyStr) (args : List PyStr)
    (hstrip : pyStripWs line ≠ [])
    (hsp : splitWs line = cmd :: args) (hexit : cmd ≠ str "exit") :
    execute_command st line =
      match (dispatch st cmd args).exc with
      | some e => ⟨(dispatch st cmd args).st, (dispatch st cmd args).out, some e⟩
      | none => ⟨log_action (dispatch st cmd args).st line, (dispatch st cmd args).out, none⟩ := by
  unfold execute_command
  rw [if_neg hstrip, hsp]
  simp only [hexit, if_false]
  rfl

/-- C2 (amended): a whitespace-only line adds no log entry; a line whose
first token is `exit` adds exactly one entry whose action is the literal
string `exit`; any other line adds exactly one entry whose action is the
verbatim line, unless the command raised an unhandled exception (possible
only for `cp`), in which case no entry is added. -/
theorem c2_logging (st : EmuState) (line : PyStr) :
    (execute_command st line).st.log =
      if pyStripWs line = [] then st.log
      else if (splitWs line).head? = some (str "exit") then st.log ++ [str "exit"]
      else if (execute_command st line).exc = none then st.log ++ [line]
      else st.log := by
  by_cases hstrip : pyStripWs line = []
  · rw [if_pos hstrip]
    unfold execute_command
    rw [if_pos hstrip]
  · rw [if_neg hstrip]
    cases hsp : splitWs line with
    | nil =>
      exact absurd (pyStripWs_eq_nil_iff line |>.mpr (splitWs_eq_nil_iff line |>.mp hsp)) hstrip
    | cons cmd args =>
      by_cases hexit : cmd = str "exit"
      · rw [if_pos (by rw [hexit]; rfl)]
        unfold execute_command
        rw [if_neg hstrip, hsp]
        simp only [hexit, if_true, eq_self_iff_true]
        cases hcl : cleanup (log_action st (str "exit")) with
        | mk st2 e =>
          have hl : st2.log = st.log ++ [str "exit"] := by
            have := cleanup_log (log_action st (str "exit"))
            rw [hcl] at this
            exact this
          cases e with
          | none => simpa using hl
          | some err => simpa using hl
      · rw [if_neg (by simp [hexit])]
        rw [execute_command_eq st line cmd args hstrip hsp hexit]
        cases hexc : (dispatch st cmd args).exc with
        | none => simp [log_action, dispatch_log]
        | some e => simp [dispatch_log]

theorem readLine1_ne_nil {s : PyStr} (h : s ≠ []) : readLine1 s ≠ [] := by
  cases s with
  | nil => exact absurd rfl h
  | cons c rest =>
    unfold readLine1
    split
    · simp
    · simp

theorem readLine1_cons (c : Char) (t : PyStr) :
    readLine1 (c :: t) = if c = '\n' then ['\n'] else c :: readLine1 t := rfl

theorem pyReadLines_cons (c : Char) (t : PyStr) :
    pyReadLines (c :: t) =
      match pyReadLines t with
      | [] => if c = '\n' then [['\n']] else [[c]]
      | l :: ls => if c = '\n' then ['\n'] :: l :: ls else (c :: l) :: ls := rfl

theorem pyReadLines_cons_ne_nil (c : Char) (rest : PyStr) : pyReadLines (c :: rest) ≠ [] := by
  rw [pyReadLines_cons]
  cases pyReadLines rest with
  | nil => by_cases hc : c = '\n' <;> simp [hc]
  | cons l ls => by_cases hc : c = '\n' <;> simp [hc]

theorem pyReadLines_step (c : Char) (rest : PyStr) :
    pyReadLines (c :: rest) =
      readLine1 (c :: rest) ::
        pyReadLines ((c :: rest).drop (readLine1 (c :: rest)).length) := by
  induction rest generalizing c with
  | nil =>
    by_cases hc : c = '\n' <;> simp [pyReadLines, readLine1, hc]
  | cons c2 rest2 ih =>
    by_cases hc : c = '\n'
    · subst hc
      have h1 : readLine1 ('\n' :: c2 :: rest2) = ['\n'] := by simp [readLine1]
      rw [h1]
      simp only [List.length_cons, List.length_nil, List.drop_succ_cons, List.drop_zero]
      cases hr : pyReadLines (c2 :: rest2) with
      | nil => exact absurd hr (pyReadLines_cons_ne_nil c2 rest2)
      | cons l ls =>
        rw [pyReadLines_cons, hr]
        simp
    · have h1 : readLine1 (c :: c2 :: rest2) = c :: readLine1 (c2 :: rest2) := by
        rw [readLine1_cons, if_neg hc]
      rw [h1]
      have hthis := ih c2
      have h2 : pyReadLines (c :: c2 :: rest2) =
          (c :: readLine1 (c2 :: rest2))
            :: pyReadLines ((c2 :: rest2).drop (readLine1 (c2 :: rest2)).length) := by
        cases hr : pyReadLines (c2 :: rest2) with
        | nil => exact absurd hr (pyReadLines_cons_ne_nil c2 rest2)
        | cons l ls =>
          rw [hr] at hthis
          rw [List.cons.injEq] at hthis
          rw [pyReadLines_cons, hr]
          simp only [hc, if_false]
          rw [hthis.1, hthis.2]
      rw [h2]
      simp

theorem headLoop_eq (fuel : Nat) : ∀ s : PyStr,
    headLoop fuel s = ((pyReadLines s).take fuel).map pyRstripWs := by
  induction fuel with
  | zero => intro s; simp [headLoop]
  | succ n ih =>
    intro s
    cases s with
    | nil => simp [headLoop, readLine1, pyReadLines]
    | cons c rest =>
      have hne : readLine1 (c :: rest) ≠ [] := readLine1_ne_nil (by simp)
      unfold headLoop
      rw [if_neg hne, pyReadLines_step c rest]
      simp only [List.take_succ_cons, List.map_cons, List.cons.injEq]
      exact ⟨trivial, ih _⟩

/-- C3 (amended): for an existing file, `head` prints exactly
`min(10, number of lines)` lines, each printed line being the corresponding
line of the file with its trailing whitespace (the newline included)
stripped. -/
theorem c3_head (st : EmuState) (a content : PyStr)
    (h : hfind st.fs (get_full_path st.temp_dir st.current_path
          (normalize_path st.current_path a)) = some (.file content)) :
    (head_file st [a]).out = ((pyReadLines content).take 10).map pyRstripWs ∧
    (head_file st [a]).out.length = min 10 (pyReadLines content).length ∧
    (head_file st [a]).st = st ∧ (head_file st [a]).exc = none := by
  have h1 : head_file st [a] = ⟨st, headLoop 10 content, none⟩ := by
    unfold head_file
    simp only [h]
  rw [h1]
  refine ⟨headLoop_eq 10 content, ?_, rfl, rfl⟩
  rw [headLoop_eq 10 content]
  simp [List.length_take]

/-- C3 witness: the amended head theorem applied to the sample state's
`file1.txt`. -/
theorem c3_head_witness :
    (head_file st0 [str "/file1.txt"]).out
        = ((pyReadLines (str "L1\nL2 \n")).take 10).map pyRstripWs ∧
    (head_file st0 [str "/file1.txt"]).out.length
        = min 10 (pyReadLines (str "L1\nL2 \n")).length ∧
    (head_file st0 [str "/file1.txt"]).st = st0 ∧
    (head_file st0 [str "/file1.txt"]).exc = none :=
  c3_head st0 (str "/file1.txt") (str "L1\nL2 \n") (by decide)

theorem hfind_hset (fs : HostFS) (q : PyStr) (m : HNode) (p : PyStr) :
    hfind (hset fs q m) p = if q = p then some m else hfind fs p := by
  induction fs with
  | nil =>
    by_cases h : q = p
    · simp [hset, hfind, h]
    · simp [hset, hfind, h]
  | cons e rest ih =>
    obtain ⟨a, b⟩ := e
    by_cases he : a = q
    · subst he
      by_cases hp : a = p
      · simp [hset, hfind, hp]
      · simp [hset, hfind, hp]
    · by_cases hp : a = p
      · subst hp
        have hqp : q ≠ a := fun h => he h.symm
        simp [hset, hfind, he, hqp]
      · simp [hset, hfind, he, hp, ih]

theorem makedirs0_preserves (qs : List PyStr) :
    ∀ fs fs' : HostFS, ∀ p : PyStr, ∀ n : HNode,
      makedirs0 fs qs = .ok fs' → hfind fs p = some n → hfind fs' p = some n := by
  induction qs with
  | nil =>
    intro fs fs' p n h hp
    unfold makedirs0 at h
    cases h
    exact hp
  | cons q qs ih =>
    intro fs fs' p n h hp
    unfold makedirs0 at h
    cases hq : hfind fs q with
    | some node =>
      rw [hq] at h
      cases node with
      | file c => cases h
      | dir => exact ih fs fs' p n h hp
    | none =>
      rw [hq] at h
      refine ih (hset fs q .dir) fs' p n h ?_
      rw [hfind_hset]
      rw [if_neg ?_]
      · exact hp
      · intro hqp
        rw [hqp, hp] at hq
        cases hq

/-- C6: a `cp` whose source does not exist prints the cannot-stat message
(quoting the normalized source) and leaves the whole session state — index
and working area included — unchanged; a `cp` whose source is a directory
prints the omitting-directory message and likewise changes nothing. -/
theorem c6_cp_errors (st : EmuState) (s d : PyStr) :
    (hostExists st.fs (get_full_path st.temp_dir st.current_path
        (normalize_path st.current_path s)) = false →
      copy_file st [s, d] =
        ⟨st, [str "cp: cannot stat '" ++ normalize_path st.current_path s
              ++ str "': No such file or directory"], none⟩) ∧
    (hostExists st.fs (get_full_path st.temp_dir st.current_path
        (normalize_path st.current_path s)) = true →
     hostIsDir st.fs (get_full_path st.temp_dir st.current_path
        (normalize_path st.current_path s)) = true →
      copy_file st [s, d] =
        ⟨st, [str "cp: omitting directory '" ++ normalize_path st.current_path s
              ++ str "'"], none⟩) := by
  constructor
  · intro h
    unfold copy_file
    simp only [h, Bool.not_false, if_true]
  · intro h1 h2
    unfold copy_file
    simp only [h1, h2, Bool.not_true, if_false, if_true]
    simp

/-- C6 witness: in the sample state, `cp /nope /x` reports the missing
source and `cp /home /x` reports the directory source, both leaving the
state unchanged. -/
theorem c6_cp_errors_witness :
    copy_file st0 [str "/nope", str "/x"] =
      ⟨st0, [str "cp: cannot stat '" ++ normalize_path st0.current_path (str "/nope")
            ++ str "': No such file or directory"], none⟩ ∧
    copy_file st0 [str "/home", str "/x"] =
      ⟨st0, [str "cp: omitting directory '" ++ normalize_path st0.current_path (str "/home")
            ++ str "'"], none⟩ :=
  ⟨(c6_cp_errors st0 (str "/nope") (str "/x")).1 (by decide),
   (c6_cp_errors st0 (str "/home") (str "/x")).2 (by decide) (by decide)⟩

/-- C10: a `cp` whose destination resolves to an existing directory in the
working area reaches the byte-copy step, which raises `IsADirectoryError`;
the exception escapes `execute_command`: nothing is printed, no log entry is
written, and the index is not rebuilt (only the `makedirs` side effect on
the host filesystem remains). -/
theorem c10_cp_dir_dest (st : EmuState) (line s d content : PyStr) (fs1 : HostFS)
    (hsp : splitWs line = [str "cp", s, d])
    (hsrc : hfind st.fs (get_full_path st.temp_dir st.current_path
        (normalize_path st.current_path s)) = some (.file content))
    (hdst : hfind st.fs (get_full_path st.temp_dir st.current_path
        (normalize_path st.current_path d)) = some .dir)
    (hmk : makedirs st.fs (pyDirname (get_full_path st.temp_dir st.current_path
        (normalize_path st.current_path d))) = .ok fs1) :
    execute_command st line = ⟨{ st with fs := fs1 }, [], some .isADirectoryError⟩ := by
  have hstrip : pyStripWs line ≠ [] := by
    intro hnil
    have hall := (pyStripWs_eq_nil_iff line).mp hnil
    have h2 := (splitWs_eq_nil_iff line).mpr hall
    rw [hsp] at h2
    cases h2
  rw [execute_command_eq st line (str "cp") [s, d] hstrip hsp (by decide)]
  have hd : dispatch st (str "cp") [s, d] = copy_file st [s, d] := by
    unfold dispatch
    rw [if_neg (by decide), if_neg (by decide), if_pos rfl]
  have hpres : hfind fs1 (get_full_path st.temp_dir st.current_path
      (normalize_path st.current_path d)) = some .dir := by
    unfold makedirs at hmk
    exact makedirs0_preserves _ _ _ _ _ hmk hdst
  have hneq : get_full_path st.temp_dir st.current_path (normalize_path st.current_path s)
      ≠ get_full_path st.temp_dir st.current_path (normalize_path st.current_path d) := by
    intro he
    rw [he, hdst] at hsrc
    cases hsrc
  have hcf : copyfile fs1
      (get_full_path st.temp_dir st.current_path (normalize_path st.current_path s))
      (get_full_path st.temp_dir st.current_path (normalize_path st.current_path d))
      = .error .isADirectoryError := by
    unfold copyfile
    rw [if_neg hneq, hpres]
  have hc : copy_file st [s, d] = ⟨{ st with fs := fs1 }, [], some .isADirectoryError⟩ := by
    unfold copy_file
    simp only [hostExists, hostIsDir, hsrc, hmk, hcf, Option.isSome_some, Bool.not_true,
      if_false]
    simp
  rw [hd, hc]

/-- C10 witness: `cp /file1.txt /home` on the sample state propagates
`IsADirectoryError` with no output and no log entry. -/
theorem c10_cp_dir_dest_witness :
    execute_command st0 (str "cp /file1.txt /home")
      = ⟨{ st0 with fs := st0.fs }, [], some .isADirectoryError⟩ :=
  c10_cp_dir_dest st0 (str "cp /file1.txt /home") (str "/file1.txt") (str "/home")
    (str "L1\nL2 \n") st0.fs (by decide) (by decide) (by decide) (by rfl)

theorem rstripChar_eq_self {c : Char} {l : PyStr} (h : l.getLast? ≠ some c) :
    rstripChar c l = l := by
  cases hl : l.reverse with
  | nil =>
    have hnil : l = [] := by
      have := congrArg List.reverse hl
      simpa using this
    subst hnil
    rfl
  | cons a t =>
    have hha : l.reverse.head? = some a := by rw [hl]; rfl
    have hg : l.getLast? = some a := by rw [← List.head?_reverse]; exact hha
    have ha : a ≠ c := fun he => h (he ▸ hg)
    unfold rstripChar
    rw [dropWhile_head_ne (a := a) hha (by simp [ha]), List.reverse_reverse]

theorem rstripChar_append_same (c : Char) (l : PyStr) :
    rstripChar c (l ++ [c]) = rstripChar c l := by
  unfold rstripChar
  rw [List.reverse_append]
  simp [List.dropWhile_cons]

theorem dropWhile_all_append {p : Char → Bool} {xs : PyStr}
    (h : ∀ x ∈ xs, p x = true) (ys : PyStr) :
    (xs ++ ys).dropWhile p = ys.dropWhile p := by
  rw [List.dropWhile_append]
  have hnil : xs.dropWhile p = [] := List.dropWhile_eq_nil_iff.mpr h
  simp [hnil]

theorem getLast?_ne_of_not_mem {c : Char} {l : PyStr} (hl : l ≠ []) (h : c ∉ l) :
    l.getLast? ≠ some c := by
  intro he
  rw [List.getLast?_eq_getLast_of_ne_nil hl] at he
  have : l.getLast hl ∈ l := List.getLast_mem hl
  rw [Option.some.injEq] at he
  rw [he] at this
  exact h this

theorem pyDirname_parent (pre seg : PyStr) (hnos : '/' ∉ seg) :
    pyDirname (pre ++ '/' :: seg) =
      if (pre ++ ['/']).any (· ≠ '/') then rstripChar '/' (pre ++ ['/'])
      else pre ++ ['/'] := by
  unfold pyDirname
  have hrev : (pre ++ '/' :: seg).reverse = seg.reverse ++ '/' :: pre.reverse := by
    simp
  have h1 : (pre ++ '/' :: seg).reverse.dropWhile (· ≠ '/') = '/' :: pre.reverse := by
    rw [hrev, dropWhile_all_append (fun x hx => by
      simp only [decide_eq_true_eq, ne_eq]
      exact fun he => hnos (he ▸ List.mem_reverse.mp hx))]
    simp [List.dropWhile_cons]
  rw [h1, List.reverse_cons, List.reverse_reverse]
  have hne : pre ++ ['/'] ≠ [] := by simp
  simp only [hne, ne_eq, not_false_eq_true, decide_True, Bool.true_and]

/-- C8: `cd` with no argument leaves the state unchanged; `cd ..` at the
root is a no-op; `cd ..` at a directory of the form `pre ++ "/" ++ seg`
(one non-empty slash-free final segment) moves the current directory to its
parent, the root when `pre` is empty. -/
theorem c8_cd_parent (st : EmuState) (pre seg : PyStr)
    (hseg : seg ≠ []) (hnos : '/' ∉ seg)
    (hpre : pre = [] ∨ (startsW ['/'] pre = true ∧ pre.getLast? ≠ some '/')) :
    change_dir st [] = ⟨st, [], none⟩ ∧
    (st.current_path = str "/" → change_dir st [str ".."] = ⟨st, [], none⟩) ∧
    (st.current_path = pre ++ '/' :: seg →
      change_dir st [str ".."] =
        ⟨{ st with current_path := if pre = [] then str "/" else pre }, [], none⟩) := by
  have hdd : change_dir st [str ".."] =
      if st.current_path ≠ str "/" then
        ⟨{ st with current_path :=
            if pyDirname (rstripChar '/' st.current_path) = [] then str "/"
            else pyDirname (rstripChar '/' st.current_path) }, [], none⟩
      else ⟨st, [], none⟩ := rfl
  refine ⟨rfl, ?_, ?_⟩
  · intro hroot
    rw [hdd, if_neg (by simp [hroot])]
  · intro hcwd
    have hglast : st.current_path.getLast? ≠ some '/' := by
      rw [hcwd, List.getLast?_append_cons]
      cases seg with
      | nil => exact absurd rfl hseg
      | cons s0 s2 =>
        rw [List.getLast?_cons_cons]
        exact getLast?_ne_of_not_mem (by simp)
          (fun hm => hnos hm)
    have hner : st.current_path ≠ str "/" := by
      rw [hcwd]
      intro he
      have hlen := congrArg List.length he
      rw [List.length_append, List.length_cons] at hlen
      have h1 : (str "/").length = 1 := rfl
      rw [h1] at hlen
      have hz : seg.length = 0 := by omega
      exact hseg (List.eq_nil_of_length_eq_zero hz)
    rw [hdd, if_pos hner]
    have hstrip : rstripChar '/' st.current_path = st.current_path :=
      rstripChar_eq_self hglast
    rw [hstrip, hcwd, pyDirname_parent pre seg hnos]
    rcases hpre with rfl | ⟨hpres, hplast⟩
    · rfl
    · have hpne : pre ≠ [] := by
        intro he
        rw [he] at hpres
        simp [startsW] at hpres
      have hgl : pre.getLast? = some (pre.getLast hpne) :=
        List.getLast?_eq_getLast_of_ne_nil hpne
      have hxne : pre.getLast hpne ≠ '/' := by
        intro he
        exact hplast (by rw [hgl, he])
      have hany : (pre ++ ['/']).any (· ≠ '/') = true := by
        rw [List.any_eq_true]
        exact ⟨pre.getLast hpne, List.mem_append_left _ (List.getLast_mem hpne),
          by simp [hxne]⟩
      rw [if_pos hany, rstripChar_append_same, rstripChar_eq_self hplast,
        if_neg hpne]

/-- C8 witness: `cd ..` from `/a/b` yields `/a`, from `/a` yields `/`, and
the no-argument and at-root cases are no-ops. -/
theorem c8_cd_parent_witness :
    change_dir { st0 with current_path := str "/a/b" } [] =
      ⟨{ st0 with current_path := str "/a/b" }, [], none⟩ ∧
    change_dir { st0 with current_path := str "/a/b" } [str ".."] =
      ⟨{ st0 with current_path := str "/a" }, [], none⟩ ∧
    change_dir st0 [str ".."] = ⟨st0, [], none⟩ :=
  ⟨(c8_cd_parent { st0 with current_path := str "/a/b" } (str "/a") (str "b")
      (by decide) (by decide) (by decide)).1,
   by
    have h := (c8_cd_parent { st0 with current_path := str "/a/b" } (str "/a") (str "b")
      (by decide) (by decide) (by decide)).2.2 (by decide)
    simpa using h,
   (c8_cd_parent st0 [] (str "x") (by decide) (by decide) (by decide)).2.1 (by decide)⟩

theorem startsW_false_of_lt {p s : PyStr} (h : s.length < p.length) :
    startsW p s = false := by
  cases hs : startsW p s
  · rfl
  · exact absurd (length_le_of_startsW hs) (by omega)

theorem packArchive_cons_under (r q : PyStr) (n : HNode) (X : HostFS) :
    packArchive ((r ++ '/' :: q, n) :: X) r =
      (q, match n with | .file c => some c | .dir => none) :: packArchive X r := by
  unfold packArchive
  rw [List.filterMap_cons]
  have hsplit : r ++ '/' :: q = (r ++ ['/']) ++ q := by simp
  have h1 : startsW (r ++ ['/']) (r ++ '/' :: q) = true := by
    rw [hsplit]
    exact startsW_append_self _ _
  have hd : (r ++ '/' :: q).drop (r.length + 1) = q := by
    have h3 : r.length + 1 = (r ++ ['/']).length := by simp
    rw [hsplit, h3, List.drop_left]
  simp only [h1, if_true, hd]

theorem packArchive_cons_out (r : PyStr) (e : PyStr × HNode) (X : HostFS)
    (h : startsW (r ++ ['/']) e.1 = false) :
    packArchive (e :: X) r = packArchive X r := by
  unfold packArchive
  rw [List.filterMap_cons]
  simp [h]

theorem packArchive_append (X Y : HostFS) (r : PyStr) :
    packArchive (X ++ Y) r = packArchive X r ++ packArchive Y r :=
  List.filterMap_append _ _ _

theorem fileEntries_append (a b : Archive) :
    fileEntries (a ++ b) = fileEntries a ++ fileEntries b :=
  List.filterMap_append _ _ _

theorem packArchive_dirs (r : PyStr) (qs : List PyStr) :
    packArchive (qs.map (fun q => (r ++ '/' :: q, HNode.dir))) r
      = qs.map (fun q => (q, none)) := by
  induction qs with
  | nil => rfl
  | cons q qs ih =>
    rw [List.map_cons, packArchive_cons_under, ih, List.map_cons]

theorem fileEntries_dirs (qs : List PyStr) :
    fileEntries (qs.map (fun q => (q, none))) = [] := by
  induction qs with
  | nil => rfl
  | cons q qs ih => simp [fileEntries, List.filterMap_cons, ih]

theorem pack_extract (B : Archive) (r : PyStr) :
    fileEntries (packArchive (extractAll B r) r) = fileEntries B := by
  have hroot : startsW (r ++ ['/']) (r, HNode.dir).1 = false :=
    startsW_false_of_lt (by simp)
  unfold extractAll
  rw [packArchive_cons_out r (r, .dir) _ hroot]
  induction B with
  | nil => rfl
  | cons e B ih =>
    rw [List.flatMap_cons, packArchive_append, fileEntries_append, ih,
      packArchive_append, fileEntries_append, packArchive_dirs, fileEntries_dirs]
    rcases e with ⟨p, oc⟩
    cases oc with
    | none =>
      simp only [packArchive_cons_under]
      simp [fileEntries, List.filterMap_cons, packArchive]
    | some c =>
      simp only [packArchive_cons_under]
      simp [fileEntries, List.filterMap_cons, packArchive]

/-- C9: the file set survives the archive round trip: extracting an archive
into a working area, repackaging the working area (as `cleanup` does) and
extracting the repackaged archive again yields exactly the original files
with byte-identical contents; only directory entries may be added or
reordered. -/
theorem c9_roundtrip (A : Archive) (r1 r2 : PyStr) :
    fileEntries (packArchive (extractAll (packArchive (extractAll A r1) r1) r2) r2)
        = fileEntries A ∧
    fileEntries (packArchive (extractAll A r1) r1) = fileEntries A := by
  have h1 := pack_extract A r1
  have h2 := pack_extract (packArchive (extractAll A r1) r1) r2
  exact ⟨h2.trans h1, h1⟩

theorem normalize_path_abs (cwd p : PyStr)
    (hcwd : startsW ['/'] cwd = true)
    (hb1 : ∀ ch ∈ cwd, ch ≠ '\\') (hb2 : ∀ ch ∈ p, ch ≠ '\\') :
    ∃ k cs, (k = 1 ∨ k = 2) ∧
      normalize_path cwd p = List.replicate k '/' ++ joinSep '/' cs ∧
      ∀ c ∈ cs, c ≠ [] ∧ c ≠ ['.'] ∧ c ≠ ['.', '.'] ∧ '/' ∉ c := by
  by_cases habs : startsW ['/'] p = true
  · obtain ⟨cs, hk, hstruct, hcs⟩ := normpath_abs p habs
    refine ⟨initialSlashes p, cs, hk, ?_, ?_⟩
    · have hrep : pyReplace '\\' '/' (normpath p) = normpath p := by
        apply pyReplace_eq_self
        intro ch hch
        rw [hstruct] at hch
        rcases List.mem_append.mp hch with h | h
        · rw [List.eq_of_mem_replicate h]; decide
        · rcases joinSep_chars '/' cs ch h with rfl | ⟨c, hcmem, hchc⟩
          · decide
          · exact hb2 ch ((hcs c hcmem).1 ch hchc).1
      unfold normalize_path
      rw [if_pos habs, hrep, hstruct]
    · intro c hc
      obtain ⟨h1, h2, h3, h4⟩ := hcs c hc
      exact ⟨h2, h3, h4, fun hm => ((h1 '/' hm).2 rfl)⟩
  · have hqabs : startsW ['/'] (pyJoin cwd p) = true := by
      obtain ⟨t, rfl⟩ := (startsW_iff_append ['/'] cwd).mp hcwd
      unfold pyJoin
      rw [if_neg (by simp [habs])]
      by_cases hc : ((('/' :: t : PyStr) = []) ∨ (List.getLast? ('/' :: t) = some '/'))
      · rw [if_pos (by simpa using hc)]
        simp [startsW]
      · rw [if_neg (by simpa using hc)]
        simp [startsW]
    have hqbs : ∀ ch ∈ pyJoin cwd p, ch ≠ '\\' := by
      intro ch hch
      unfold pyJoin at hch
      split at hch
      · exact hb2 ch hch
      · split at hch
        · rcases List.mem_append.mp hch with h | h
          · exact hb1 ch h
          · exact hb2 ch h
        · rcases List.mem_append.mp hch with h | h
          · exact hb1 ch h
          · rcases List.mem_cons.mp h with rfl | h
            · decide
            · exact hb2 ch h
    obtain ⟨cs, hk, hstruct, hcs⟩ := normpath_abs (pyJoin cwd p) hqabs
    refine ⟨initialSlashes (pyJoin cwd p), cs, hk, ?_, ?_⟩
    · have hrep : pyReplace '\\' '/' (normpath (pyJoin cwd p)) = normpath (pyJoin cwd p) := by
        apply pyReplace_eq_self
        intro ch hch
        rw [hstruct] at hch
        rcases List.mem_append.mp hch with h | h
        · rw [List.eq_of_mem_replicate h]; decide
        · rcases joinSep_chars '/' cs ch h with rfl | ⟨c, hcmem, hchc⟩
          · decide
          · exact hqbs ch ((hcs c hcmem).1 ch hchc).1
      unfold normalize_path
      rw [if_neg (by simp [habs]), hrep, hstruct]
    · intro c hc
      obtain ⟨h1, h2, h3, h4⟩ := hcs c hc
      exact ⟨h2, h3, h4, fun hm => ((h1 '/' hm).2 rfl)⟩

theorem joinSep_ne_nil_of_head {cs : List PyStr} (hne : cs ≠ [])
    (h : ∀ c ∈ cs, c ≠ []) : joinSep '/' cs ≠ [] := by
  cases cs with
  | nil => exact absurd rfl hne
  | cons c cs2 =>
    obtain ⟨t, ht⟩ := joinSep_head_chars '/' c cs2
    rw [ht]
    have := h c (List.mem_cons_self _ _)
    cases c with
    | nil => exact absurd rfl this
    | cons a b => simp

theorem joinSep_getLast_ne_slash (cs : List PyStr) (hne : cs ≠ [])
    (h : ∀ c ∈ cs, c ≠ [] ∧ '/' ∉ c) :
    (joinSep '/' cs).getLast? ≠ some '/' := by
  induction cs with
  | nil => exact absurd rfl hne
  | cons c cs2 ih =>
    cases cs2 with
    | nil =>
      have hc := h c (List.mem_cons_self _ _)
      exact getLast?_ne_of_not_mem hc.1 hc.2
    | cons c2 cs3 =>
      have hjoin : joinSep '/' (c :: c2 :: cs3) = c ++ '/' :: joinSep '/' (c2 :: cs3) := rfl
      rw [hjoin, List.getLast?_append_cons]
      have hj2 : joinSep '/' (c2 :: cs3) ≠ [] :=
        joinSep_ne_nil_of_head (by simp)
          (fun d hd => (h d (List.mem_cons_of_mem c hd)).1)
      cases hj : joinSep '/' (c2 :: cs3) with
      | nil => exact absurd hj hj2
      | cons j0 jr =>
        rw [List.getLast?_cons_cons]
        have := ih (by simp) (fun d hd => h d (List.mem_cons_of_mem c hd))
        rw [hj] at this
        exact this

theorem startsW_trans {a b c : PyStr} (h1 : startsW a b = true) (h2 : startsW b c = true) :
    startsW a c = true := by
  obtain ⟨t, rfl⟩ := (startsW_iff_append a b).mp h1
  obtain ⟨u, rfl⟩ := (startsW_iff_append (a ++ t) c).mp h2
  rw [List.append_assoc]
  exact startsW_append_self _ _

theorem noDoubleSlash_cons2 (a b : Char) (t : PyStr) :
    noDoubleSlash (a :: b :: t) = (!(a = '/' && b = '/') && noDoubleSlash (b :: t)) := rfl

theorem wf_no_dslash {f : PyStr} (h : wfEntry f = true) : startsW ['/', '/'] f = false := by
  cases f with
  | nil => rfl
  | cons a t =>
    cases t with
    | nil => simp [startsW]
    | cons b t2 =>
      have hnd : noDoubleSlash (a :: b :: t2) = true := by
        unfold wfEntry at h
        simp only [Bool.and_eq_true] at h
        exact h.1.2
      rw [noDoubleSlash_cons2] at hnd
      simp only [Bool.and_eq_true, Bool.not_eq_true', Bool.and_eq_false_iff,
        decide_eq_false_iff_not] at hnd
      rcases hnd.1 with h1 | h1
      · have ha : ¬ ('/' = a) := fun he => h1 he.symm
        simp [startsW, ha]
      · have hb : ¬ ('/' = b) := fun he => h1 he.symm
        simp [startsW, hb]

theorem change_dir_eq (st : EmuState) (arg : PyStr) (h : arg ≠ str "..") :
    change_dir st [arg] =
      if dirInIndex st.files (cdTarget st.current_path arg) then
        ⟨{ st with current_path :=
            if rstripChar '/' (cdTarget st.current_path arg) = [] then str "/"
            else rstripChar '/' (cdTarget st.current_path arg) }, [], none⟩
      else ⟨st, [str "cd: no such file or directory: " ++ arg], none⟩ := by
  unfold change_dir cdTarget
  simp only [h, if_false]

/-- C7 (amended): for a backslash-free `cd` argument other than `..`, with a
backslash-free absolute current directory and a well-formed index: when the
slash-terminated normalized path is not in the index, `cd` prints the
no-such-file message quoting the original argument and changes nothing; when
it is, `cd` prints nothing and the current directory becomes the normalized
path (the root being represented as `/`, never the empty string). -/
theorem c7_cd (st : EmuState) (arg : PyStr)
    (harg : arg ≠ str "..")
    (hb2 : ∀ ch ∈ arg, ch ≠ '\\')
    (hcwd : startsW ['/'] st.current_path = true)
    (hb1 : ∀ ch ∈ st.current_path, ch ≠ '\\')
    (hwf : ∀ f ∈ st.files, wfEntry f = true) :
    (dirInIndex st.files (cdTarget st.current_path arg) = false →
      change_dir st [arg] =
        ⟨st, [str "cd: no such file or directory: " ++ arg], none⟩) ∧
    (dirInIndex st.files (cdTarget st.current_path arg) = true →
      change_dir st [arg] =
        ⟨{ st with current_path := normalize_path st.current_path arg }, [], none⟩ ∧
      normalize_path st.current_path arg ≠ []) := by
  constructor
  · intro hfail
    rw [change_dir_eq st arg harg, if_neg (by simp [hfail])]
  · intro hsucc
    obtain ⟨k, cs, hk, hnp, hcs⟩ := normalize_path_abs st.current_path arg hcwd hb1 hb2
    have hk1 : k = 1 := by
      rcases hk with hk | hk
      · exact hk
      · exfalso
        subst hk
        have hds : startsW ['/', '/'] (cdTarget st.current_path arg) = true := by
          unfold cdTarget
          simp only [hnp]
          have hrep2 : List.replicate 2 '/' = ['/', '/'] := rfl
          split
          · rw [hrep2]
            simp [startsW]
          · rw [hrep2]
            simp [startsW]
        rw [dirInIndex, List.any_eq_true] at hsucc
        obtain ⟨f, hf, hcond⟩ := hsucc
        simp only [Bool.or_eq_true, decide_eq_true_eq] at hcond
        have hfds : startsW ['/', '/'] f = true := by
          rcases hcond with rfl | hpf
          · exact hds
          · exact startsW_trans hds hpf
        rw [wf_no_dslash (hwf f hf)] at hfds
        cases hfds
    subst hk1
    cases hcs0 : cs with
    | nil =>
      have hnp1 : normalize_path st.current_path arg = ['/'] := by
        rw [hnp, hcs0]
        rfl
      have htgt : cdTarget st.current_path arg = ['/'] := by
        unfold cdTarget
        simp [hnp1]
      rw [change_dir_eq st arg harg, if_pos hsucc]
      refine ⟨?_, by rw [hnp1]; simp⟩
      rw [htgt, hnp1]
      rfl
    | cons c cs2 =>
      rw [hcs0] at hcs
      have hjne : joinSep '/' (c :: cs2) ≠ [] :=
        joinSep_ne_nil_of_head (by simp) (fun d hd => (hcs d hd).1)
      have hlast : (normalize_path st.current_path arg).getLast? ≠ some '/' := by
        rw [hnp, hcs0, List.getLast?_append_of_ne_nil _ hjne]
        exact joinSep_getLast_ne_slash (c :: cs2) (by simp)
          (fun d hd => ⟨(hcs d hd).1, (hcs d hd).2.2.2⟩)
      have hnpne : normalize_path st.current_path arg ≠ [] := by
        rw [hnp, hcs0]
        simp
      have htgt : cdTarget st.current_path arg
          = normalize_path st.current_path arg ++ ['/'] := by
        unfold cdTarget
        simp only [if_neg hlast]
      rw [change_dir_eq st arg harg, if_pos hsucc]
      refine ⟨?_, hnpne⟩
      rw [htgt, rstripChar_append_same, rstripChar_eq_self hlast, if_neg hnpne]

/-- C7 witness: in the sample state, `cd home` succeeds and sets the current
directory to the normalized `/home`, and `cd /nope` fails with the message
quoting the original argument and leaves the state unchanged. -/
theorem c7_cd_witness :
    (change_dir st0 [str "home"] =
      ⟨{ st0 with current_path := normalize_path st0.current_path (str "home") }, [], none⟩ ∧
      normalize_path st0.current_path (str "home") ≠ []) ∧
    change_dir st0 [str "/nope"] =
      ⟨st0, [str "cd: no such file or directory: " ++ str "/nope"], none⟩ :=
  ⟨(c7_cd st0 (str "home") (by decide) (by decide) (by decide) (by decide)
      (by decide)).2 (by decide),
   (c7_cd st0 (str "/nope") (by decide) (by decide) (by decide) (by decide)
      (by decide)).1 (by decide)⟩

theorem pyStrLt_eq_of_not (a : PyStr) : ∀ b, pyStrLt a b = false → pyStrLt b a = false → a = b := by
  induction a with
  | nil =>
    intro b h1 _
    cases b with
    | nil => rfl
    | cons x t => simp [pyStrLt] at h1
  | cons x s ih =>
    intro b h1 h2
    cases b with
    | nil => simp [pyStrLt] at h2
    | cons y t =>
      unfold pyStrLt at h1 h2
      by_cases hxy : x < y
      · rw [if_pos hxy] at h1
        cases h1
      · rw [if_neg hxy] at h1
        by_cases hyx : y < x
        · rw [if_pos hyx] at h2
          cases h2
        · rw [if_neg hyx] at h1
          rw [if_neg hyx, if_neg hxy] at h2
          have hxey : x = y := le_antisymm (not_lt.mp hyx) (not_lt.mp hxy)
          rw [hxey, ih t h1 h2]

theorem pyStrLt_trans (a : PyStr) :
    ∀ b c, pyStrLt a b = true → pyStrLt b c = true → pyStrLt a c = true := by
  induction a with
  | nil =>
    intro b c h1 h2
    cases b with
    | nil => cases h1
    | cons y t =>
      cases c with
      | nil => cases h2
      | cons z u => rfl
  | cons x s ih =>
    intro b c h1 h2
    cases b with
    | nil => cases h1
    | cons y t =>
      cases c with
      | nil => cases h2
      | cons z u =>
        unfold pyStrLt at h1 h2 ⊢
        by_cases hxy : x < y
        · by_cases hyz : y < z
          · rw [if_pos (hxy.trans hyz)]
          · rw [if_neg hyz] at h2
            by_cases hzy : z < y
            · rw [if_pos hzy] at h2
              cases h2
            · have : y = z := le_antisymm (not_lt.mp hzy) (not_lt.mp hyz)
              rw [if_pos (this ▸ hxy)]
        · rw [if_neg hxy] at h1
          by_cases hyx : y < x
          · rw [if_pos hyx] at h1
            cases h1
          · have hxey : x = y := le_antisymm (not_lt.mp hyx) (not_lt.mp hxy)
            rw [if_neg hyx] at h1
            subst hxey
            by_cases hxz : x < z
            · rw [if_pos hxz]
            · rw [if_neg hxz] at h2 ⊢
              by_cases hzx : z < x
              · rw [if_pos hzx] at h2
                cases h2
              · rw [if_neg hzx] at h2 ⊢
                exact ih t u h1 h2

theorem mem_insertUnique (x a : PyStr) : ∀ l, a ∈ insertUnique x l ↔ a = x ∨ a ∈ l := by
  intro l
  induction l with
  | nil => simp [insertUnique]
  | cons y ys ih =>
    unfold insertUnique
    by_cases h1 : pyStrLt x y = true
    · rw [if_pos h1]
      simp [or_comm, or_assoc, or_left_comm]
    · rw [if_neg h1]
      by_cases h2 : x = y
      · rw [if_pos h2]
        subst h2
        simp only [List.mem_cons]
        constructor
        · exact fun h => Or.inr h
        · rintro (rfl | h)
          · exact Or.inl rfl
          · exact h
      · rw [if_neg h2]
        simp only [List.mem_cons, ih]
        constructor
        · rintro (rfl | h)
          · exact Or.inr (Or.inl rfl)
          · rcases h with h | h
            · exact Or.inl h
            · exact Or.inr (Or.inr h)
        · rintro (rfl | rfl | h)
          · exact Or.inr (Or.inl rfl)
          · exact Or.inl rfl
          · exact Or.inr (Or.inr h)

theorem pairwise_insertUnique (x : PyStr) :
    ∀ l, List.Pairwise (fun a b => pyStrLt a b = true) l →
      List.Pairwise (fun a b => pyStrLt a b = true) (insertUnique x l) := by
  intro l
  induction l with
  | nil => intro _; simp [insertUnique]
  | cons y ys ih =>
    intro hp
    rw [List.pairwise_cons] at hp
    unfold insertUnique
    by_cases h1 : pyStrLt x y = true
    · rw [if_pos h1]
      rw [List.pairwise_cons]
      refine ⟨?_, List.pairwise_cons.mpr hp⟩
      intro b hb
      rcases List.mem_cons.mp hb with rfl | hb
      · exact h1
      · exact pyStrLt_trans x y b h1 (hp.1 b hb)
    · rw [if_neg h1]
      by_cases h2 : x = y
      · rw [if_pos h2]
        exact List.pairwise_cons.mpr hp
      · rw [if_neg h2]
        rw [List.pairwise_cons]
        refine ⟨?_, ih hp.2⟩
        intro b hb
        rcases (mem_insertUnique x b ys).mp hb with rfl | hb
        · have hyx : pyStrLt b y = false := by
            cases h : pyStrLt b y
            · rfl
            · exact absurd h h1
          cases h : pyStrLt y b
          · exact absurd (pyStrLt_eq_of_not y b h hyx) (fun he => h2 he.symm)
          · rfl
        · exact hp.1 b hb

theorem mem_pySortedSet (a : PyStr) (l : List PyStr) :
    a ∈ pySortedSet l ↔ a ∈ l := by
  unfold pySortedSet
  induction l with
  | nil => simp
  | cons y ys ih =>
    rw [List.foldr_cons, mem_insertUnique]
    simp [ih]

theorem pairwise_pySortedSet (l : List PyStr) :
    List.Pairwise (fun a b => pyStrLt a b = true) (pySortedSet l) := by
  unfold pySortedSet
  induction l with
  | nil => simp
  | cons y ys ih => exact pairwise_insertUnique y _ ih

theorem noDoubleSlash_tail {x : Char} {t : PyStr} (h : noDoubleSlash (x :: t) = true) :
    noDoubleSlash t = true := by
  cases t with
  | nil => rfl
  | cons b t2 =>
    rw [noDoubleSlash_cons2, Bool.and_eq_true] at h
    exact h.2

theorem noDoubleSlash_suffix (xs : PyStr) :
    ∀ ys, noDoubleSlash (xs ++ ys) = true → noDoubleSlash ys = true := by
  induction xs with
  | nil => exact fun ys h => h
  | cons x t ih =>
    intro ys h
    exact ih ys (noDoubleSlash_tail h)

theorem noDoubleSlash_boundary (xs : PyStr) :
    ∀ ys, noDoubleSlash (xs ++ ys) = true → xs.getLast? = some '/' →
      ys.head? ≠ some '/' := by
  induction xs with
  | nil =>
    intro ys _ hl
    cases hl
  | cons x t ih =>
    intro ys h hl
    cases t with
    | nil =>
      have hx : x = '/' := by simpa using hl
      subst hx
      cases ys with
      | nil => simp
      | cons y ys2 =>
        intro hy
        have hy' : y = '/' := by simpa using hy
        subst hy'
        rw [List.singleton_append, noDoubleSlash_cons2] at h
        simp at h
    | cons b t2 =>
      have hl2 : (b :: t2).getLast? = some '/' := by
        rw [← hl, List.getLast?_cons_cons]
      exact ih ys (noDoubleSlash_tail h) hl2

theorem takeWhile_all_append {p : Char → Bool} {xs : PyStr}
    (h : ∀ x ∈ xs, p x = true) (ys : PyStr) :
    (xs ++ ys).takeWhile p = xs ++ ys.takeWhile p := by
  induction xs with
  | nil => simp
  | cons a t ih =>
    simp only [List.cons_append, List.takeWhile_cons, h a (List.mem_cons_self a t)]
    rw [ih (fun x hx => h x (List.mem_cons_of_mem a hx))]
    simp

theorem dropWhile_head_false {p : Char → Bool} {b : Char} {t : PyStr} :
    ∀ {l : PyStr}, l.dropWhile p = b :: t → p b = false := by
  intro l
  induction l with
  | nil => intro h; cases h
  | cons x xs ih =>
    intro h
    rw [List.dropWhile_cons] at h
    by_cases hx : p x = true
    · rw [if_pos hx] at h
      exact ih h
    · rw [if_neg hx] at h
      cases h
      exact Bool.not_eq_true _ |>.mp hx

theorem rstripChar_append_keep {c : Char} {ys : PyStr} (hys : ∃ x ∈ ys, x ≠ c)
    (xs : PyStr) : rstripChar c (xs ++ ys) = xs ++ rstripChar c ys := by
  unfold rstripChar
  rw [List.reverse_append, List.dropWhile_append]
  have hne : ys.reverse.dropWhile (· = c) ≠ [] := by
    intro hnil
    obtain ⟨x, hx, hxc⟩ := hys
    exact hxc (by simpa using List.dropWhile_eq_nil_iff.mp hnil x (List.mem_reverse.mpr hx))
  rw [if_neg (by simpa using hne)]
  rw [List.reverse_append, List.reverse_reverse]

theorem rstripChar_head_keep {c m0 : Char} (h : m0 ≠ c) (m2 : PyStr) :
    ∃ t, rstripChar c (m0 :: m2) = m0 :: t := by
  by_cases hm : ∃ x ∈ m2, x ≠ c
  · have := rstripChar_append_keep hm [m0]
    rw [List.singleton_append] at this
    exact ⟨rstripChar c m2, this⟩
  · push_neg at hm
    refine ⟨[], ?_⟩
    unfold rstripChar
    rw [List.reverse_cons, List.dropWhile_append]
    have hdr : m2.reverse.dropWhile (· = c) = [] :=
      List.dropWhile_eq_nil_iff.mpr (fun x hx => by simpa using hm x (List.mem_reverse.mp hx))
    rw [hdr]
    simp [h]

theorem contains_iff_mem (l : PyStr) (a : Char) : l.contains a = true ↔ a ∈ l := by
  simp [List.contains]

theorem lsChild_not_pre {p f : PyStr} (h : startsW p f = false) : lsChild p f = none := by
  unfold lsChild
  rw [if_neg (by simp [h])]

theorem lsChild_self (p : PyStr) : lsChild p p = none := by
  unfold lsChild
  rw [if_pos (by
    have := startsW_append_self p []
    simpa using this)]
  rw [List.drop_length]
  simp [stripChar, lstripChar, rstripChar]

theorem lsChild_spec (p f : PyStr) (hwf : wfEntry f = true) (hp : p.getLast? = some '/')
    (hpre : startsW p f = true) (hne : f ≠ p) :
    lsChild p f = some (collapseSpec (f.drop p.length)) := by
  obtain ⟨rest, rfl⟩ := (startsW_iff_append p f).mp hpre
  have hdrop : (p ++ rest).drop p.length = rest := List.drop_left p rest
  have hrne : rest ≠ [] := by
    rintro rfl
    simp at hne
  have hbody : lsChild p (p ++ rest) =
      (if (stripChar '/' rest).contains '/' then
        some ((stripChar '/' rest).takeWhile (· ≠ '/') ++ ['/'])
      else if stripChar '/' rest ≠ [] then
        some (if (p ++ rest).getLast? = some '/' then stripChar '/' rest ++ ['/']
              else stripChar '/' rest)
      else none) := by
    unfold lsChild
    rw [if_pos (startsW_append_self p rest), hdrop]
  rw [hbody, hdrop]
  have hglf : (p ++ rest).getLast? = rest.getLast? :=
    List.getLast?_append_of_ne_nil p hrne
  have hnds : noDoubleSlash (p ++ rest) = true := by
    unfold wfEntry at hwf
    simp only [Bool.and_eq_true] at hwf
    exact hwf.1.2
  have hndr : noDoubleSlash rest = true := noDoubleSlash_suffix p rest hnds
  cases rest with
  | nil => exact absurd rfl hrne
  | cons h0 rtl =>
  have hh0 : h0 ≠ '/' := by
    intro he
    exact noDoubleSlash_boundary p (h0 :: rtl) hnds hp (by rw [he]; rfl)
  have hlstrip : lstripChar '/' (h0 :: rtl) = h0 :: rtl :=
    dropWhile_head_ne (a := h0) rfl (by simp [hh0])
  rcases hrem : (h0 :: rtl).dropWhile (· ≠ '/') with _ | ⟨r0, rm⟩
  · -- no slash in the remainder at all
    have hall : ∀ x ∈ h0 :: rtl, x ≠ '/' := by
      have hh := List.dropWhile_eq_nil_iff.mp hrem
      intro x hx
      simpa using hh x hx
    have hnm : '/' ∉ h0 :: rtl := fun hm => (hall '/' hm) rfl
    have hsub : stripChar '/' (h0 :: rtl) = h0 :: rtl := by
      unfold stripChar
      rw [hlstrip, rstripChar_eq_self (getLast?_ne_of_not_mem (by simp) hnm)]
    rw [hsub]
    have hcon : (h0 :: rtl).contains '/' = false := by
      cases hcc : (h0 :: rtl).contains '/'
      · rfl
      · exact absurd ((contains_iff_mem _ _).mp hcc) hnm
    rw [if_neg (by rw [hcon]; simp), if_pos (by simp)]
    have hgl : (p ++ h0 :: rtl).getLast? ≠ some '/' := by
      rw [hglf]
      exact getLast?_ne_of_not_mem (by simp) hnm
    rw [if_neg hgl]
    unfold collapseSpec
    rw [if_neg (by rw [hcon]; simp)]
  · -- the remainder has a slash: rest = seg ++ '/' :: rm
    have hr0 : r0 = '/' := by
      have := dropWhile_head_false hrem
      simpa using this
    subst hr0
    have hsplitrest : (h0 :: rtl).takeWhile (· ≠ '/') ++ '/' :: rm = h0 :: rtl := by
      have := List.takeWhile_append_dropWhile (p := (fun x => decide (x ≠ '/'))) (l := h0 :: rtl)
      rw [hrem] at this
      exact this
    have hsegmem : '/' ∉ (h0 :: rtl).takeWhile (· ≠ '/') := by
      intro hm
      have := List.mem_takeWhile_imp hm
      simp at this
    have hsegall : ∀ x ∈ (h0 :: rtl).takeWhile (· ≠ '/'), x ≠ '/' := by
      intro x hx
      have h2 := List.mem_takeWhile_imp hx
      simpa using h2
    have hsegne : (h0 :: rtl).takeWhile (· ≠ '/') ≠ [] := by
      rw [List.takeWhile_cons, if_pos (by simp [hh0])]
      simp
    have hmemslash : '/' ∈ h0 :: rtl := by
      rw [← hsplitrest]
      exact List.mem_append_right _ (List.mem_cons_self _ _)
    have hconr : (h0 :: rtl).contains '/' = true := (contains_iff_mem _ _).mpr hmemslash
    have htw : (h0 :: rtl).takeWhile (· ≠ '/') =
        (h0 :: rtl).takeWhile (· ≠ '/') := rfl
    have htakerest : ∀ z : PyStr, ((h0 :: rtl).takeWhile (· ≠ '/') ++ '/' :: z).takeWhile (· ≠ '/')
        = (h0 :: rtl).takeWhile (· ≠ '/') := by
      intro z
      rw [takeWhile_all_append (fun x hx => by simp [hsegall x hx])]
      simp
    cases rm with
    | nil =>
      -- rest = seg ++ ['/']
      have hrest2 : h0 :: rtl = (h0 :: rtl).takeWhile (· ≠ '/') ++ ['/'] := hsplitrest.symm
      have hsub : stripChar '/' (h0 :: rtl) = (h0 :: rtl).takeWhile (· ≠ '/') := by
        unfold stripChar
        rw [hlstrip]
        conv_lhs => rw [hrest2]
        rw [rstripChar_append_same,
          rstripChar_eq_self (getLast?_ne_of_not_mem hsegne hsegmem)]
      rw [hsub]
      have hconseg : ((h0 :: rtl).takeWhile (· ≠ '/')).contains '/' = false := by
        cases hcc : ((h0 :: rtl).takeWhile (· ≠ '/')).contains '/'
        · rfl
        · exact absurd ((contains_iff_mem _ _).mp hcc) hsegmem
      rw [if_neg (by rw [hconseg]; simp), if_pos hsegne]
      have hgl : (p ++ h0 :: rtl).getLast? = some '/' := by
        rw [hglf]
        conv_lhs => rw [hrest2]
        simp
      rw [if_pos hgl]
      unfold collapseSpec
      rw [if_pos hconr]
    | cons m0 m2 =>
      -- rest = seg ++ '/' :: m0 :: m2, with m0 ≠ '/'
      have hndrem : noDoubleSlash ('/' :: m0 :: m2) = true := by
        have := noDoubleSlash_suffix ((h0 :: rtl).takeWhile (· ≠ '/')) ('/' :: m0 :: m2)
        exact this (by rw [hsplitrest]; exact hndr)
      have hm0 : m0 ≠ '/' := by
        rw [noDoubleSlash_cons2] at hndrem
        simp only [Bool.and_eq_true, Bool.not_eq_true', Bool.and_eq_false_iff,
          decide_eq_false_iff_not] at hndrem
        rcases hndrem.1 with h | h
        · simp at h
        · exact h
      obtain ⟨t2, ht2⟩ := rstripChar_head_keep hm0 m2
      have hsub : stripChar '/' (h0 :: rtl) =
          (h0 :: rtl).takeWhile (· ≠ '/') ++ '/' :: m0 :: t2 := by
        unfold stripChar
        rw [hlstrip]
        conv_lhs => rw [← hsplitrest]
        rw [rstripChar_append_keep ⟨m0, by simp, hm0⟩]
        have hcons : ('/' :: m0 :: m2 : PyStr) = ['/'] ++ m0 :: m2 := rfl
        rw [hcons, @rstripChar_append_keep '/' (m0 :: m2) ⟨m0, by simp, hm0⟩ ['/'], ht2]
        simp
      rw [hsub]
      have hconsub : ((h0 :: rtl).takeWhile (· ≠ '/') ++ '/' :: m0 :: t2).contains '/' = true :=
        (contains_iff_mem _ _).mpr (List.mem_append_right _ (List.mem_cons_self _ _))
      rw [if_pos hconsub]
      unfold collapseSpec
      rw [if_pos hconr, htakerest (m0 :: t2)]

theorem lsChild_no_inner_slash {p f o : PyStr} (h : lsChild p f = some o) :
    '/' ∉ o.dropLast := by
  unfold lsChild at h
  by_cases h1 : startsW p f = true
  · rw [if_pos h1] at h
    by_cases h2 : (stripChar '/' (f.drop p.length)).contains '/' = true
    · rw [if_pos h2, Option.some.injEq] at h
      subst h
      rw [List.dropLast_concat]
      intro hm
      have hmm := List.mem_takeWhile_imp hm
      simp at hmm
    · rw [if_neg h2] at h
      by_cases h3 : stripChar '/' (f.drop p.length) ≠ []
      · rw [if_pos h3, Option.some.injEq] at h
        have hnm : '/' ∉ stripChar '/' (f.drop p.length) := by
          intro hm
          exact h2 ((contains_iff_mem _ _).mpr hm)
        subst h
        by_cases h4 : f.getLast? = some '/'
        · rw [if_pos h4, List.dropLast_concat]
          exact hnm
        · rw [if_neg h4]
          intro hm
          exact hnm ((List.dropLast_sublist _).mem hm)
      · rw [if_neg h3] at h
        cases h
  · rw [if_neg h1] at h
    cases h

theorem mem_lsListing (files : List PyStr) (p o : PyStr)
    (hwf : ∀ f ∈ files, wfEntry f = true) (hp : p.getLast? = some '/') :
    o ∈ lsListing files p ↔
      ∃ f, f ∈ files ∧ startsW p f = true ∧ f ≠ p ∧ o = collapseSpec (f.drop p.length) := by
  unfold lsListing
  rw [mem_pySortedSet, List.mem_filterMap]
  constructor
  · rintro ⟨f, hf, hlc⟩
    by_cases h1 : startsW p f = true
    · by_cases h2 : f = p
      · subst h2
        rw [lsChild_self] at hlc
        cases hlc
      · rw [lsChild_spec p f (hwf f hf) hp h1 h2, Option.some.injEq] at hlc
        exact ⟨f, hf, h1, h2, hlc.symm⟩
    · rw [lsChild_not_pre (by
        cases hcc : startsW p f
        · rfl
        · exact absurd hcc h1)] at hlc
      cases hlc
  · rintro ⟨f, hf, h1, h2, rfl⟩
    exact ⟨f, hf, lsChild_spec p f (hwf f hf) hp h1 h2⟩

/-- C5: for a well-formed index and a slash-terminated directory path, the
`ls` listing is strictly sorted in code-point order (hence deduplicated),
its members are exactly the collapsed immediate children described by the
spec — every indexed proper extension of the path contributes its first
remaining segment, with a trailing slash when anything deeper follows (a
synthesized directory entry) — and no listed name contains an interior
slash, so grandchildren never appear. -/
theorem c5_ls_listing (files : List PyStr) (p : PyStr)
    (hwf : ∀ f ∈ files, wfEntry f = true) (hp : p.getLast? = some '/') :
    List.Pairwise (fun a b => pyStrLt a b = true) (lsListing files p) ∧
    (∀ o, o ∈ lsListing files p ↔
      ∃ f, f ∈ files ∧ startsW p f = true ∧ f ≠ p ∧
        o = collapseSpec (f.drop p.length)) ∧
    (∀ o ∈ lsListing files p, '/' ∉ o.dropLast) := by
  refine ⟨pairwise_pySortedSet _, fun o => mem_lsListing files p o hwf hp, ?_⟩
  intro o ho
  unfold lsListing at ho
  rw [mem_pySortedSet, List.mem_filterMap] at ho
  obtain ⟨f, _, hlc⟩ := ho
  exact lsChild_no_inner_slash hlc

/-- C5 witness: the listing theorem applied to the sample index at the
root. -/
theorem c5_ls_listing_witness :
    List.Pairwise (fun a b => pyStrLt a b = true) (lsListing st0.files (str "/")) ∧
    (∀ o, o ∈ lsListing st0.files (str "/") ↔
      ∃ f, f ∈ st0.files ∧ startsW (str "/") f = true ∧ f ≠ str "/" ∧
        o = collapseSpec (f.drop (str "/").length)) ∧
    (∀ o ∈ lsListing st0.files (str "/"), '/' ∉ o.dropLast) :=
  c5_ls_listing st0.files (str "/") (by decide) (by decide)

/-- C1 witness: a backslash-free traversal attempt `../../etc` from `/home`
stays inside the root `/w`. -/
theorem c1_contained_witness :
    insideRoot (str "/w")
      (get_full_path (str "/w") (str "/home")
        (normalize_path (str "/home") (str "../../etc"))) = true :=
  c1_contained (str "/w") (str "/home") (str "../../etc")
    (by decide) (by decide) (by decide) (by decide) (by decide)

/-- C1 counterexample: the argument `..\..` (no slash, so `normpath` treats
it as one component) survives normalization, and the backslash-to-slash
replacement then turns it into `../..`, so the computed host location
`/work/../..` escapes the working-area root. -/
theorem c1_counterexample :
    insideRoot (str "/work")
      (get_full_path (str "/work") (str "/") (normalize_path (str "/") (str "..\\.."))) = false := by
  decide

/-- C2 counterexample: the line `exit now` is logged as the literal string
`exit`, not verbatim. -/
theorem c2_counterexample :
    (execute_command st0 (str "exit now")).st.log = [str "exit"] ∧
    str "exit" ≠ str "exit now" := by
  decide

/-- C3 counterexample: `head` prints `line.rstrip()`, which strips all
trailing whitespace, not only the newline: a file whose line is `"x \n"`
prints as `"x"`, not `"x "`. -/
theorem c3_counterexample :
    (head_file { st0 with fs := (str "/w/t.txt", .file (str "x \n")) :: st0.fs }
        [str "/t.txt"]).out
      ≠ ((pyReadLines (str "x \n")).take 10).map stripNlOnly := by
  decide

/-- C4: evaluating the code at the failing input: a first `cleanup` succeeds
and marks the lifecycle closed, and a second `cleanup` then raises
`TypeError` out of `os.path.exists(None)` instead of being a no-op. -/
theorem c4_double_close_raises :
    (cleanup st0).2 = none ∧ (cleanup st0).1.vfs_open = false ∧
    (cleanup (cleanup st0).1).2 = some PyErr.typeError := by
  decide

/-- C7 counterexample: the backslash argument `a\` normalizes to the
slash-terminated `/a/`, and a successful `cd` then sets the current directory
to `/a`, which differs from the normalized path, with no error printed. -/
theorem c7_counterexample :
    (change_dir { st0 with files := [str "/a/x"] } [str "a\\"]).st.current_path = str "/a" ∧
    normalize_path (str "/") (str "a\\") = str "/a/" ∧
    (change_dir { st0 with files := [str "/a/x"] } [str "a\\"]).out = [] ∧
    str "/a" ≠ str "/a/" := by
  decide

end Emu
